import Mathlib

/- Verification of the PII redaction pipeline (pii_redact_v3.py).
Text is modelled as List Char, Python ints/floats as ℤ/ℚ, Python dicts for
entities as the structure Ent, collections.Counter as String → Nat, and code
that can raise (int()/float()/slicing on bad values) as Option-returning
functions. Regular expressions are modelled by a small backtracking matcher
with Python re's leftmost, greedy-priority semantics. -/

/-- Per-category counts, modelling collections.Counter: the count of a missing
key is 0. -/
def Cnt : Type := String → Nat

/-- The empty counter. -/
def cnt0 : Cnt := fun _ => 0

/-- Increment one category of a counter. -/
def bump (c : Cnt) (g : String) : Cnt := fun x => if x = g then c x + 1 else c x

/-- A Python value in an entity field: an int, a float (modelled exactly as a
rational), or a non-numeric value that float() and int() both reject. -/
inductive PyNum where
  | int (n : ℤ)
  | float (q : ℚ)
  | nonNum (s : String)
deriving DecidableEq

/-- Numeric value of a PyNum, when it has one. -/
def PyNum.asQ : PyNum → Option ℚ
  | .int n => some (n : ℚ)
  | .float q => some q
  | .nonNum _ => none

/-- Python int(x): ints unchanged, floats truncated toward zero, non-numeric
values raise (modelled as none). -/
def PyNum.toIntC : PyNum → Option ℤ
  | .int n => some n
  | .float q => some (q.num.tdiv (q.den : ℤ))
  | .nonNum _ => none

/-- Use of the value as a slice index: Python raises TypeError unless it is an
int. -/
def PyNum.sliceIdx : PyNum → Option ℤ
  | .int n => some n
  | _ => none

/-- An NER entity record: keys entity_group, start, end, word, score. -/
structure Ent where
  group : String
  start : PyNum
  stop : PyNum
  word : List Char
  score : PyNum
deriving DecidableEq

/-- Clamp a Python slice bound into [0, len]; negative bounds count from the
end of the string. -/
def pyBound (len : Nat) (i : ℤ) : Nat :=
  if i < 0 then (len + i).toNat else min i.toNat len

/-- Python text[a:b]. -/
def pySlice (t : List Char) (a b : ℤ) : List Char :=
  (t.take (pyBound t.length b)).drop (pyBound t.length a)

/-- Python text[:a] + tok + text[b:], the single masking substitution. -/
def pyStitch (t : List Char) (a b : ℤ) (tok : List Char) : List Char :=
  t.take (pyBound t.length a) ++ tok ++ t.drop (pyBound t.length b)

/-- Whitespace test used by str.split(), str.strip() and the regex class for
backslash-s (ASCII fragment). -/
def pws (c : Char) : Bool := c.isWhitespace

/-- Python str.strip(). -/
def pyStrip (t : List Char) : List Char :=
  ((t.dropWhile pws).reverse.dropWhile pws).reverse

/-- Accumulator pass of str.split(): cur holds the reversed current word. -/
def pySplitGo (cur : List Char) : List Char → List (List Char)
  | [] => if cur = [] then [] else [cur.reverse]
  | c :: cs =>
    if pws c then
      if cur = [] then pySplitGo [] cs else cur.reverse :: pySplitGo [] cs
    else pySplitGo (c :: cur) cs

/-- Python str.split() with no argument: whitespace-delimited words, empty
chunks dropped. -/
def pySplit (t : List Char) : List (List Char) := pySplitGo [] t

/-- The quote unification of preprocess_text: the four single-character
str.replace calls map curly quotes to straight ones. -/
def quoteFix (c : Char) : Char :=
  if c = '‘' ∨ c = '’' then '\'' else
  if c = '“' ∨ c = '”' then '"' else c

/-- Python " ".join. -/
def sjoin : List (List Char) → List Char
  | [] => []
  | [w] => w
  | w :: ws => w ++ ' ' :: sjoin ws

/-- preprocess_text from the source. unicodedata.normalize("NFC", _) is a
library call outside the repository and is taken as the parameter nfc. -/
def preprocess_text (nfc : List Char → List Char) (text : List Char) : List Char :=
  sjoin (pySplit ((nfc text).map quoteFix))

/-- COMMON_STREET_WORDS from the source (a Python set of lowercase words). -/
def COMMON_STREET_WORDS : List (List Char) :=
  ["street".toList, "st".toList, "st.".toList,
   "avenue".toList, "ave".toList, "ave.".toList,
   "road".toList, "rd".toList, "rd.".toList,
   "boulevard".toList, "blvd".toList, "blvd.".toList,
   "lane".toList, "ln".toList, "ln.".toList,
   "drive".toList, "dr".toList, "dr.".toList,
   "way".toList, "court".toList, "ct".toList, "ct.".toList,
   "place".toList, "pl".toList, "pl.".toList,
   "circle".toList, "cir".toList, "cir.".toList,
   "parkway".toList, "pkwy".toList, "pkwy.".toList,
   "highway".toList, "hwy".toList, "hwy.".toList]

/-- should_filter_location from the source. -/
def should_filter_location (entity_text : List Char) (filter_streets : Bool) : Bool :=
  if filter_streets = false then false
  else
    let text_lower := pyStrip (entity_text.map Char.toLower)
    if COMMON_STREET_WORDS.contains text_lower then true
    else
      let words := pySplit text_lower
      decide (2 ≤ words.length) && COMMON_STREET_WORDS.contains (words.getLast?.getD [])

/-- The street-suppression condition as the spec words it: the surface text,
lowercased and stripped, equals a member of the street-suffix vocabulary, or
its last whitespace-delimited token is such a member. Stated independently of
should_filter_location for the refinement comparison. -/
def specStreetSuppressed (entity_text : List Char) : Bool :=
  let low := pyStrip (entity_text.map Char.toLower)
  COMMON_STREET_WORDS.contains low ||
    (match (pySplit low).getLast? with
     | some w => COMMON_STREET_WORDS.contains w
     | none => false)

/-- Lookup in the group_to_token dict. -/
def alookup : List (String × List Char) → String → Option (List Char)
  | [], _ => none
  | (k, v) :: rest, g => if k = g then some v else alookup rest g

/-- The per-entity coercion e2 of clean_and_filter_ents: the score becomes the
float 0.0 when float() rejects it, offsets become ints when int() accepts them
and are left unmodified otherwise. The entity_group field is a string already
in this model, so the str cast is the identity. -/
def cleanOne (e : Ent) : Ent :=
  { e with
    score := .float ((e.score.asQ).getD 0),
    start := match e.start.toIntC with | some n => .int n | none => e.start,
    stop := match e.stop.toIntC with | some n => .int n | none => e.stop }

/-- clean_and_filter_ents from the source: coerce each span and keep it only
when score >= min_score. -/
def clean_and_filter_ents : List Ent → ℚ → List Ent
  | [], _ => []
  | e :: rest, min_score =>
    if ((e.score.asQ).getD 0) ≥ min_score then
      cleanOne e :: clean_and_filter_ents rest min_score
    else clean_and_filter_ents rest min_score

/-- The street-filtering loop of mask_ner_multi (only run when filter_streets
is set). Slicing text[start:end] with a non-int raises, hence the Option. -/
def streetPass (text : List Char) : List Ent → Option (List Ent × Cnt)
  | [] => some ([], cnt0)
  | e :: rest => do
    let a ← e.start.sliceIdx
    let b ← e.stop.sliceIdx
    let etext := pySlice text a b
    let (keep, fc) ← streetPass text rest
    if e.group == "LOC" && should_filter_location etext true then
      some (keep, bump fc e.group)
    else
      some (e :: keep, fc)

/-- The substitution loop of mask_ner_multi: right-to-left replacement over the
already-sorted span list, with int() coercion of the offsets. -/
def maskLoop (g2t : List (String × List Char)) : List Char → List Ent → Option (List Char × Cnt)
  | t, [] => some (t, cnt0)
  | t, e :: rest => do
    let a ← e.start.toIntC
    let b ← e.stop.toIntC
    let tok ← alookup g2t e.group
    let (tf, c) ← maskLoop g2t (pyStitch t a b tok) rest
    some (tf, bump c e.group)

/-- Sort key of mask_ner_multi: the raw start value. A non-numeric start makes
the Python sort raise; maskLoop returns none on such an entity, so the value
chosen for it here is immaterial. -/
def startKey (e : Ent) : ℚ := (e.start.asQ).getD 0

/-- The comparison of Python sorted(key=start, reverse=True): a stable
descending sort, which insertion sort with this relation implements. -/
def maskRel (a b : Ent) : Prop := startKey b ≤ startKey a

instance : DecidableRel maskRel := fun a b =>
  inferInstanceAs (Decidable (startKey b ≤ startKey a))

instance : IsTotal Ent maskRel := ⟨fun a b => le_total (startKey b) (startKey a)⟩

instance : IsTrans Ent maskRel := ⟨fun _ _ _ h1 h2 => le_trans h2 h1⟩

/-- sorted(sel, key=start, reverse=True). -/
def sortDesc (l : List Ent) : List Ent := List.insertionSort maskRel l

/-- mask_ner_multi from the source. -/
def mask_ner_multi (text : List Char) (ents : List Ent)
    (group_to_token : List (String × List Char)) (filter_streets : Bool) :
    Option (List Char × Cnt × Cnt) := do
  let sel := ents.filter (fun e => (alookup group_to_token e.group).isSome)
  let (sel2, fcnt) ← if filter_streets then streetPass text sel else some (sel, cnt0)
  let (mtext, cnt) ← maskLoop group_to_token text (sortDesc sel2)
  some (mtext, cnt, fcnt)

/-- Regular-expression fragments covering the source's patterns. starCls is
the greedy star of a character class (every star and plus in the source's
patterns is over a plain class, so no general star is needed). look tests the
characters around the current position without consuming (word boundaries and
one-character lookarounds). save records the current position (the capture
group of the title-name pattern). -/
inductive RE where
  | cls (p : Char → Bool)
  | seq (a b : RE)
  | alt (a b : RE)
  | opt (a : RE)
  | starCls (p : Char → Bool)
  | look (f : Option Char → Option Char → Bool)
  | save

/-- The character before position i, if any. -/
def prevChar (t : List Char) (i : Nat) : Option Char :=
  if i = 0 then none else t[i-1]?

/-- Length of the maximal run of class characters starting at position i. -/
def runLen (t : List Char) (p : Char → Bool) (i : Nat) : Nat :=
  ((t.drop i).takeWhile p).length

/-- All candidate outcomes of matching a pattern at position i of t, as pairs
(end position, recorded save positions), in Python re's backtracking priority
order: the head is the outcome Python selects. Greedy quantifiers put longer
attempts first; alternation tries the left side first. -/
def runs (t : List Char) : RE → Nat → List (Nat × List Nat)
  | .cls p, i =>
    match t[i]? with
    | some c => if p c then [(i+1, [])] else []
    | none => []
  | .seq a b, i =>
    (runs t a i).flatMap (fun r => (runs t b r.1).map (fun r2 => (r2.1, r.2 ++ r2.2)))
  | .alt a b, i => runs t a i ++ runs t b i
  | .opt a, i => runs t a i ++ [(i, [])]
  | .starCls p, i =>
    (List.range (runLen t p i + 1)).map (fun d => (i + runLen t p i - d, []))
  | .look f, i => if f (prevChar t i) t[i]? then [(i, [])] else []
  | .save, i => [(i, [i])]

/-- Always-matching empty pattern, the unit of concatenation. -/
def eps : RE := .look (fun _ _ => true)

/-- Concatenation of a list of patterns. -/
def chain (l : List RE) : RE := l.foldr .seq eps

/-- Never-matching pattern, the unit of alternation. -/
def reFail : RE := .cls (fun _ => false)

/-- Alternation over a list of patterns, tried in list order. -/
def alts (l : List RE) : RE := l.foldr .alt reFail

/-- One-or-more of a character class (greedy). -/
def plusCls (p : Char → Bool) : RE := .seq (.cls p) (.starCls p)

/-- Case-insensitive literal match of a lowercase word. -/
def strRE (s : List Char) : RE := chain (s.map (fun c => .cls (fun x => x.toLower = c)))

/-- Python regex digit class (ASCII fragment). -/
def isDigitC (c : Char) : Bool := c.isDigit

/-- Python regex word character (ASCII fragment). -/
def wordChar (c : Char) : Bool := c.isAlphanum || c = '_'

/-- Word-character test at an optional position (false past the ends). -/
def wB (o : Option Char) : Bool := (o.map wordChar).getD false

/-- The word-boundary test of backslash-b. -/
def bTest (l r : Option Char) : Bool := wB l != wB r

/-- The backslash-b anchor. -/
def bound : RE := .look bTest

/-- The class [\s.-] of the phone pattern. -/
def sepChar (c : Char) : Bool := pws c || c = '.' || c = '-'

/-- The local-part class [A-Za-z0-9._%+-] of the email pattern. -/
def localChar (c : Char) : Bool :=
  c.isAlphanum || c = '.' || c = '_' || c = '%' || c = '+' || c = '-'

/-- The domain class [A-Za-z0-9.-] of the email pattern. -/
def domChar (c : Char) : Bool := c.isAlphanum || c = '.' || c = '-'

/-- ASCII letter class. -/
def alphaC (c : Char) : Bool := c.isAlpha

/-- EMAIL_RE from the source. -/
def EMAIL_RE : RE := chain
  [plusCls localChar, .cls (fun c => c = '@'), plusCls domChar,
   .cls (fun c => c = '.'), .cls alphaC, plusCls alphaC]

/-- SSN_RE from the source (formatted DDD-DD-DDDD with word boundaries). -/
def SSN_RE : RE := chain
  ([bound] ++ List.replicate 3 (.cls isDigitC) ++ [.cls (fun c => c = '-')] ++
   List.replicate 2 (.cls isDigitC) ++ [.cls (fun c => c = '-')] ++
   List.replicate 4 (.cls isDigitC) ++ [bound])

/-- PHONE_RE from the source. -/
def PHONE_RE : RE := chain
  [.opt (chain [.opt (.cls (fun c => c = '+')), .cls (fun c => c = '1'),
                .opt (.cls sepChar)]),
   .opt (.cls (fun c => c = '(')), .cls isDigitC, .cls isDigitC, .cls isDigitC,
   .opt (.cls (fun c => c = ')')), .starCls sepChar,
   .cls isDigitC, .cls isDigitC, .cls isDigitC, .opt (.cls sepChar),
   .cls isDigitC, .cls isDigitC, .cls isDigitC, .cls isDigitC,
   .look (fun _ r => !((r.map isDigitC).getD false))]

/-- SSN_BARE_RE from the source (nine digits not adjacent to other digits). -/
def SSN_BARE_RE : RE := chain
  ([.look (fun l _ => !((l.map isDigitC).getD false))] ++
   List.replicate 9 (.cls isDigitC) ++
   [.look (fun _ r => !((r.map isDigitC).getD false))])

/-- ZIP_RE from the source. -/
def ZIP_RE : RE := chain
  ([bound] ++ List.replicate 5 (.cls isDigitC) ++
   [.opt (chain ((.cls (fun c => c = '-')) :: List.replicate 4 (.cls isDigitC)))] ++
   [bound])

/-- The case-insensitive word-bounded token search of mask_regex. -/
def SSN_WORD_RE : RE := chain
  [bound, .cls (fun c => c.toLower = 's'), .cls (fun c => c.toLower = 's'),
   .cls (fun c => c.toLower = 'n'), bound]

/-- Python re's match attempt at a fixed position: the first candidate in
priority order. -/
def matchAt (t : List Char) (re : RE) (i : Nat) : Option (Nat × List Nat) :=
  (runs t re i).head?

/-- Leftmost-match search from position i (fueled; any fuel of at least
t.length + 1 - i suffices). Returns (match start, match end, saves). -/
def findFromF (t : List Char) (re : RE) : Nat → Nat → Option (Nat × Nat × List Nat)
  | 0, _ => none
  | fuel+1, i =>
    if i ≤ t.length then
      match matchAt t re i with
      | some (e, sv) => some (i, e, sv)
      | none => findFromF t re fuel (i+1)
    else none

/-- re.search as used in mask_regex. -/
def reSearch (re : RE) (t : List Char) : Bool :=
  (findFromF t re (t.length + 1) 0).isSome

/-- The scan of re.subn from position i (fueled): replace each leftmost match
and resume after its end. The source's patterns never match the empty string;
a zero-width match stops the scan here. -/
def subnF (t : List Char) (re : RE) (repl : List Char) : Nat → Nat → List Char × Nat
  | 0, i => (t.drop i, 0)
  | fuel+1, i =>
    match findFromF t re (t.length + 1) i with
    | none => (t.drop i, 0)
    | some (s, e, _) =>
      if s < e then
        let r := subnF t re repl fuel e
        ((t.take s).drop i ++ repl ++ r.1, r.2 + 1)
      else (t.drop i, 0)

/-- re.subn: replace every non-overlapping occurrence left to right, returning
the new text and the substitution count. -/
def pySubn (re : RE) (repl : List Char) (t : List Char) : List Char × Nat :=
  subnF t re repl (t.length + 1) 0

/-- re.finditer: the successive non-overlapping leftmost matches. -/
def finditerF (t : List Char) (re : RE) : Nat → Nat → List (Nat × Nat × List Nat)
  | 0, _ => []
  | fuel+1, i =>
    match findFromF t re (t.length + 1) i with
    | none => []
    | some (s, e, sv) => if s < e then (s, e, sv) :: finditerF t re fuel e else []

/-- All matches of a pattern, left to right. -/
def finditer (re : RE) (t : List Char) : List (Nat × Nat × List Nat) :=
  finditerF t re (t.length + 1) 0

/-- mask_regex from the source: email, formatted SSN and phone substitutions,
then the bare-SSN substitution gated on the token search over the already
substituted text, then the optional ZIP substitution. -/
def mask_regex (text : List Char) (use_zip : Bool) : List Char × Cnt :=
  let r1 := pySubn EMAIL_RE "[EMAIL_REDACTED]".toList text
  let r2 := pySubn SSN_RE "[SSN_REDACTED]".toList r1.1
  let r3 := pySubn PHONE_RE "[PHONE_REDACTED]".toList r2.1
  let r4 := if reSearch SSN_WORD_RE r3.1 then
              pySubn SSN_BARE_RE "[SSN_REDACTED]".toList r3.1
            else (r3.1, 0)
  let r5 := if use_zip then pySubn ZIP_RE "[ZIP_REDACTED]".toList r4.1 else (r4.1, 0)
  (r5.1, fun g =>
    if g = "EMAIL" then r1.2
    else if g = "SSN" then r2.2 + r4.2
    else if g = "PHONE" then r3.2
    else if g = "ZIP" then r5.2 else 0)

/-- COMMON_TITLES from the source, in source order. Python iterates the set in
an unspecified order, but at a given position at most one alternative admits a
full match (a successful title is followed by whitespace, which rules out
every longer alternative sharing that prefix), so the order is immaterial. -/
def COMMON_TITLES : List (List Char) :=
  ["dr".toList, "dr.".toList, "doctor".toList,
   "mr".toList, "mr.".toList, "mister".toList,
   "ms".toList, "ms.".toList,
   "mrs".toList, "mrs.".toList, "missus".toList,
   "miss".toList,
   "prof".toList, "prof.".toList, "professor".toList,
   "rev".toList, "rev.".toList, "reverend".toList,
   "hon".toList, "hon.".toList, "honorable".toList,
   "sen".toList, "sen.".toList, "senator".toList,
   "rep".toList, "rep.".toList, "representative".toList,
   "capt".toList, "capt.".toList, "captain".toList,
   "lt".toList, "lt.".toList, "lieutenant".toList,
   "sgt".toList, "sgt.".toList, "sergeant".toList,
   "gen".toList, "gen.".toList, "general".toList]

/-- One name word of the title pattern. With re.IGNORECASE the classes [A-Z]
and [a-z] both match either case, so a name word is two or more letters. -/
def nameWordRE : RE := .seq (.cls alphaC) (plusCls alphaC)

/-- The title_pattern of detect_titles_and_names, with the capture group
marked by save positions. -/
def TITLE_NAME_RE : RE := chain
  [bound, alts (COMMON_TITLES.map strRE), plusCls pws,
   .save, nameWordRE, .opt (chain [plusCls pws, nameWordRE]), .save, bound]

/-- The PERSON-overlap check of detect_titles_and_names. Comparing the name
offsets against non-numeric entity offsets raises in Python, hence Option. -/
def overlapsPER (p q : Nat) : List Ent → Option Bool
  | [] => some false
  | e :: rest =>
    if e.group == "PER" then do
      let s ← e.start.asQ
      let en ← e.stop.asQ
      if ¬((q : ℚ) ≤ s ∨ (p : ℚ) ≥ en) then some true else overlapsPER p q rest
    else overlapsPER p q rest

/-- Build the title-derived PERSON spans for the given matches, skipping a
match when its name range overlaps a PERSON span of the supplied list. The
save positions of a title match always have the shape [p, q]. -/
def addTitleEnts (text : List Char) (ents : List Ent) :
    List (Nat × Nat × List Nat) → Option (List Ent)
  | [] => some []
  | (_, _, sv) :: ms =>
    match sv with
    | [p, q] => do
      let ad ← overlapsPER p q ents
      let rest ← addTitleEnts text ents ms
      if ad then some rest
      else some ({ group := "PER", start := .int (p : ℤ), stop := .int (q : ℤ),
                   word := pySlice text (p : ℤ) (q : ℤ),
                   score := .float (mkRat 95 100) } :: rest)
    | _ => addTitleEnts text ents ms

/-- detect_titles_and_names from the source. -/
def detect_titles_and_names (text : List Char) (ents : List Ent) : Option (List Ent) := do
  let adds ← addTitleEnts text ents (finditer TITLE_NAME_RE text)
  some (ents ++ adds)

/-- The per-line results of the loop body of main: the report record fields
(text and entities as written to the JSONL report), the masked line, and the
per-line counters. -/
structure LineResult where
  text : List Char
  entities : List Ent
  masked : List Char
  nerCounts : Cnt
  filteredCounts : Cnt
  rxCounts : Cnt

/-- The per-line pipeline of main: preprocess, add title detections to the
externally supplied NER spans, confidence-filter, form the report record,
entity-mask, then regex-mask. -/
def processLine (nfc : List Char → List Char) (rawLine : List Char)
    (nerEnts : List Ent) (minScore : ℚ) (maskOrg maskZip filterStreets : Bool) :
    Option LineResult := do
  let s := preprocess_text nfc rawLine
  let ents ← detect_titles_and_names s nerEnts
  let ents_f := clean_and_filter_ents ents minScore
  let groups := [("PER", "[PERSON_REDACTED]".toList), ("LOC", "[LOC_REDACTED]".toList)] ++
    (if maskOrg then [("ORG", "[ORG_REDACTED]".toList)] else [])
  let r ← mask_ner_multi s ents_f groups filterStreets
  let rx := mask_regex r.1 maskZip
  some ⟨s, ents_f, rx.1, r.2.1, r.2.2, rx.2⟩

/-- Start offset of a span as a natural number (meaningful when the offset is
an int, which the masking theorems' hypotheses guarantee). -/
def natStart (e : Ent) : Nat := ((e.start.toIntC).getD 0).toNat

/-- End offset of a span as a natural number. -/
def natStop (e : Ent) : Nat := ((e.stop.toIntC).getD 0).toNat

/-- The redaction token of a span under a group_to_token dict. -/
def tokOf (g2t : List (String × List Char)) (e : Ent) : List Char :=
  (alookup g2t e.group).getD []

/-- Well-formed in-bounds span: integer offsets with 0 <= start < end <= len. -/
def okSpanB (len : Nat) (e : Ent) : Bool :=
  match e.start, e.stop with
  | .int a, .int b => decide (0 ≤ a) && decide (a < b) && decide (b ≤ (len : ℤ))
  | _, _ => false

/-- Non-overlap of the [start, end) ranges of two spans. -/
def disjB (a b : Ent) : Bool :=
  decide (natStop a ≤ natStart b) || decide (natStop b ≤ natStart a)

/-- Ascending-start companion order, used only to state the masking results. -/
def ascRel (a b : Ent) : Prop := startKey a ≤ startKey b

instance : DecidableRel ascRel := fun a b =>
  inferInstanceAs (Decidable (startKey a ≤ startKey b))

instance : IsTotal Ent ascRel := ⟨fun a b => le_total (startKey a) (startKey b)⟩

instance : IsTrans Ent ascRel := ⟨fun _ _ _ h1 h2 => le_trans h1 h2⟩

/-- The selected spans in ascending start order. -/
def ascSort (l : List Ent) : List Ent := List.insertionSort ascRel l

/-- The shape of the masking result for pairwise-disjoint spans listed in
ascending start order: the original text outside the spans, category tokens in
place of the spans. -/
def chunks (g2t : List (String × List Char)) (t : List Char) : Nat → List Ent → List Char
  | pos, [] => t.drop pos
  | pos, e :: rest =>
    (t.take (natStart e)).drop pos ++ tokOf g2t e ++ chunks g2t t (natStop e) rest

/-- Per-category count of a span list. -/
def cntOf (l : List Ent) : Cnt := fun g => l.countP (fun e => e.group == g)

/-- Total width of the replaced ranges. -/
def sumSpans (l : List Ent) : Nat := (l.map (fun e => natStop e - natStart e)).sum

/-- Total width of the inserted tokens. -/
def sumToks (g2t : List (String × List Char)) (l : List Ent) : Nat :=
  (l.map (fun e => (tokOf g2t e).length)).sum

/-- Chained in-bounds layout of spans: each span starts after pos, is ordered,
and ends before the next begins. -/
def chainable (len : Nat) : Nat → List Ent → Prop
  | _, [] => True
  | pos, e :: rest =>
    pos ≤ natStart e ∧ natStart e ≤ natStop e ∧ natStop e ≤ len ∧
      chainable len (natStop e) rest

/-- The email substitution stage of mask_regex. -/
def rxEmail (t : List Char) : List Char × Nat :=
  pySubn EMAIL_RE "[EMAIL_REDACTED]".toList t

/-- The formatted-SSN substitution stage of mask_regex. -/
def rxSsnF (t : List Char) : List Char × Nat :=
  pySubn SSN_RE "[SSN_REDACTED]".toList (rxEmail t).1

/-- The phone substitution stage of mask_regex; its output is the text the
bare-SSN gate inspects. -/
def rxPhone (t : List Char) : List Char × Nat :=
  pySubn PHONE_RE "[PHONE_REDACTED]".toList (rxSsnF t).1

/-- A bare nine-digit number at position i, as the spec words it: nine digits
not adjacent to another digit on either side. -/
def nineDigitRunAt (u : List Char) (i : Nat) : Prop :=
  (∀ c, prevChar u i = some c → isDigitC c = false) ∧
  (∀ d, d < 9 → ∃ c, u[i + d]? = some c ∧ isDigitC c = true) ∧
  (∀ c, u[i + 9]? = some c → isDigitC c = false)

/-- A case-insensitive word-bounded occurrence of the token SSN at position
i. -/
def ssnTokenAt (u : List Char) (i : Nat) : Prop :=
  bTest (prevChar u i) u[i]? = true ∧
  (∃ c, u[i]? = some c ∧ c.toLower = 's') ∧
  (∃ c, u[i + 1]? = some c ∧ c.toLower = 's') ∧
  (∃ c, u[i + 2]? = some c ∧ c.toLower = 'n') ∧
  bTest (prevChar u (i + 3)) u[i + 3]? = true

/-- The slice of t between positions a and b. -/
def sliceN (t : List Char) (a b : Nat) : List Char := (t.take b).drop a

/-- Every position in [a, b) holds a letter. -/
def lettersAt (t : List Char) (a b : Nat) : Prop :=
  ∀ x, a ≤ x → x < b → ∃ c, t[x]? = some c ∧ alphaC c = true

/-- Every position in [a, b) holds whitespace. -/
def wsAt (t : List Char) (a b : Nat) : Prop :=
  ∀ x, a ≤ x → x < b → ∃ c, t[x]? = some c ∧ pws c = true

/-- The shape of a title-name detection with name range [p, q), as amended
from the source: a word-bounded vocabulary title (case-insensitively),
whitespace, then one or two words of two or more letters each (the classes
match letters of either case because of re.IGNORECASE), ending at a word
boundary. -/
def specTitleNameAt (t : List Char) (p q : Nat) : Prop :=
  ∃ i j, bTest (prevChar t i) t[i]? = true ∧
    (sliceN t i j).map Char.toLower ∈ COMMON_TITLES ∧
    j < p ∧ wsAt t j p ∧
    ((p + 2 ≤ q ∧ lettersAt t p q) ∨
      (∃ m1 m2, p + 2 ≤ m1 ∧ lettersAt t p m1 ∧ m1 < m2 ∧ wsAt t m1 m2 ∧
        m2 + 2 ≤ q ∧ lettersAt t m2 q)) ∧
    bTest (prevChar t q) t[q]? = true

/-- Numeric [start, end) of a span (meaningful when the offsets are numeric,
which the hypotheses of the overlap theorems guarantee). -/
def spanQ (e : Ent) : ℚ × ℚ := ((e.start.asQ).getD 0, (e.stop.asQ).getD 0)

/-- Two spans do not overlap. -/
def noOvl (a b : Ent) : Prop :=
  (spanQ a).2 ≤ (spanQ b).1 ∨ (spanQ b).2 ≤ (spanQ a).1

/- Lemmas about the normalizer. -/

theorem quoteFix_idem (c : Char) : quoteFix (quoteFix c) = quoteFix c := by
  by_cases h1 : c = '‘' ∨ c = '’'
  · have h : quoteFix c = '\'' := by unfold quoteFix; rw [if_pos h1]
    rw [h]; decide
  · by_cases h2 : c = '“' ∨ c = '”'
    · have h : quoteFix c = '"' := by unfold quoteFix; rw [if_neg h1, if_pos h2]
      rw [h]; decide
    · have h : quoteFix c = c := by unfold quoteFix; rw [if_neg h1, if_neg h2]
      simp only [h]

theorem pws_quoteFix (c : Char) : pws (quoteFix c) = pws c := by
  by_cases h1 : c = '‘' ∨ c = '’'
  · rcases h1 with h | h <;> subst h <;> decide
  · by_cases h2 : c = '“' ∨ c = '”'
    · rcases h2 with h | h <;> subst h <;> decide
    · have h : quoteFix c = c := by unfold quoteFix; rw [if_neg h1, if_neg h2]
      rw [h]

theorem pySplitGo_word (w : List Char) : ∀ (cur rest : List Char),
    (∀ c ∈ w, pws c = false) →
    pySplitGo cur (w ++ rest) = pySplitGo (w.reverse ++ cur) rest := by
  induction w with
  | nil => intro cur rest _; simp
  | cons c w' ih =>
    intro cur rest h
    have hc : pws c = false := h c (by simp)
    simp only [List.cons_append, pySplitGo, hc, Bool.false_eq_true, if_false,
      List.append_eq]
    rw [ih (c :: cur) rest (fun d hd => h d (by simp [hd]))]
    simp [List.append_assoc]

theorem pySplitGo_words (l : List Char) : ∀ (cur : List Char),
    (∀ c ∈ cur, pws c = false) →
    ∀ w ∈ pySplitGo cur l, w ≠ [] ∧ ∀ c ∈ w, pws c = false := by
  induction l with
  | nil =>
    intro cur hcur w hw
    by_cases h : cur = []
    · simp [pySplitGo, h] at hw
    · simp only [pySplitGo, if_neg h, List.mem_singleton] at hw
      subst hw
      exact ⟨by simpa using h, fun c hc => hcur c (List.mem_reverse.mp hc)⟩
  | cons c cs ih =>
    intro cur hcur w hw
    simp only [pySplitGo] at hw
    by_cases hc : pws c = true
    · rw [if_pos hc] at hw
      by_cases h : cur = []
      · rw [if_pos h] at hw
        exact ih [] (by simp) w hw
      · rw [if_neg h] at hw
        rcases List.mem_cons.mp hw with h1 | h1
        · subst h1
          exact ⟨by simpa using h, fun d hd => hcur d (List.mem_reverse.mp hd)⟩
        · exact ih [] (by simp) w h1
    · rw [if_neg hc] at hw
      refine ih (c :: cur) ?_ w hw
      intro d hd
      rcases List.mem_cons.mp hd with h1 | h1
      · subst h1; simpa using hc
      · exact hcur d h1

theorem pySplit_sjoin (W : List (List Char))
    (h : ∀ w ∈ W, w ≠ [] ∧ ∀ c ∈ w, pws c = false) :
    pySplit (sjoin W) = W := by
  induction W with
  | nil => rfl
  | cons w W' ih =>
    obtain ⟨hne, hch⟩ := h w (by simp)
    cases W' with
    | nil =>
      show pySplitGo [] (sjoin [w]) = [w]
      have h0 : sjoin [w] = w ++ [] := by simp [sjoin]
      rw [h0, pySplitGo_word w [] [] hch]
      simp [pySplitGo, hne]
    | cons v W'' =>
      show pySplitGo [] (w ++ ' ' :: sjoin (v :: W'')) = w :: v :: W''
      rw [pySplitGo_word w [] _ hch]
      have hne' : w.reverse ≠ [] := by simpa using hne
      have ih' : pySplitGo [] (sjoin (v :: W'')) = v :: W'' :=
        ih (fun u hu => h u (by simp [hu]))
      have hsp : pws ' ' = true := by decide
      simp [pySplitGo, hne', ih', hsp]

theorem sjoin_map (f : Char → Char) (hf : f ' ' = ' ') :
    ∀ W, List.map f (sjoin W) = sjoin (W.map (List.map f)) := by
  intro W
  induction W with
  | nil => rfl
  | cons w W' ih =>
    cases W' with
    | nil => rfl
    | cons v W'' =>
      show List.map f (w ++ ' ' :: sjoin (v :: W'')) = _
      simp only [List.map_append, List.map_cons, hf]
      rw [ih]
      rfl

theorem pySplitGo_map (g : Char → Char) (hg : ∀ c, pws (g c) = pws c) :
    ∀ (l cur : List Char),
    pySplitGo (cur.map g) (l.map g) = (pySplitGo cur l).map (List.map g) := by
  intro l
  induction l with
  | nil =>
    intro cur
    by_cases h : cur = []
    · simp [pySplitGo, h]
    · have h' : cur.map g ≠ [] := by simpa using h
      simp [pySplitGo, h, h', List.map_reverse]
  | cons c cs ih =>
    intro cur
    simp only [List.map_cons, pySplitGo, hg c]
    by_cases hc : pws c = true
    · rw [if_pos hc, if_pos hc]
      by_cases h : cur = []
      · have h' : cur.map g = [] := by simp [h]
        rw [if_pos h, if_pos h']
        exact ih []
      · have h' : cur.map g ≠ [] := by simpa using h
        rw [if_neg h, if_neg h']
        have ih0 : pySplitGo [] (cs.map g) = (pySplitGo [] cs).map (List.map g) := by
          simpa using ih []
        simp [ih0, List.map_reverse]
    · rw [if_neg hc, if_neg hc]
      exact ih (c :: cur)

/-- C7. Normalization is a pure function of its input and is idempotent:
applying preprocess_text twice equals applying it once. The external NFC
normalization is any function that fixes already-normalized output (true of
unicodedata.normalize("NFC", _): its outputs are NFC-normal, and replacing
curly quotes by ASCII quotes or collapsing whitespace keeps a string
NFC-normal). -/
theorem c7_normalization_idempotent (nfc : List Char → List Char)
    (hnfc : ∀ t, nfc (preprocess_text nfc t) = preprocess_text nfc t) (x : List Char) :
    preprocess_text nfc (preprocess_text nfc x) = preprocess_text nfc x := by
  have hqfcomp : quoteFix ∘ quoteFix = quoteFix := funext quoteFix_idem
  have hqf : ∀ l : List Char, (l.map quoteFix).map quoteFix = l.map quoteFix := by
    intro l; rw [List.map_map, hqfcomp]
  have hwords : ∀ w ∈ pySplit ((nfc x).map quoteFix), w ≠ [] ∧ ∀ c ∈ w, pws c = false :=
    pySplitGo_words _ [] (by simp)
  have hsplitmap : ∀ l : List Char,
      pySplit (l.map quoteFix) = (pySplit l).map (List.map quoteFix) := by
    intro l; simpa using pySplitGo_map quoteFix pws_quoteFix l []
  have hWfix : (pySplit ((nfc x).map quoteFix)).map (List.map quoteFix)
      = pySplit ((nfc x).map quoteFix) := by
    rw [← hsplitmap, hqf]
  have hmapy : (preprocess_text nfc x).map quoteFix = preprocess_text nfc x := by
    show (sjoin (pySplit ((nfc x).map quoteFix))).map quoteFix = _
    rw [sjoin_map quoteFix (by decide), hWfix]
    rfl
  show sjoin (pySplit ((nfc (preprocess_text nfc x)).map quoteFix)) = preprocess_text nfc x
  rw [hnfc x, hmapy]
  show sjoin (pySplit (sjoin (pySplit ((nfc x).map quoteFix)))) = _
  rw [pySplit_sjoin _ hwords]
  rfl

/-- Witness for C7, at the identity normalization and a concrete string. -/
theorem c7_normalization_idempotent_witness :
    preprocess_text id (preprocess_text id "  a ‘b’   c ".toList) =
      preprocess_text id "  a ‘b’   c ".toList :=
  c7_normalization_idempotent id (fun _ => rfl) _

/-- C8. The confidence filter is antitone in the threshold: for thresholds
τ1 ≤ τ2, the spans retained at τ2 are a sublist of those retained at τ1, so
raising the threshold never increases the number of spans retained. -/
theorem c8_filter_antitone (ents : List Ent) (t1 t2 : ℚ) (h : t1 ≤ t2) :
    (clean_and_filter_ents ents t2).Sublist (clean_and_filter_ents ents t1) ∧
    (clean_and_filter_ents ents t2).length ≤ (clean_and_filter_ents ents t1).length := by
  have hs : (clean_and_filter_ents ents t2).Sublist (clean_and_filter_ents ents t1) := by
    induction ents with
    | nil => simp [clean_and_filter_ents]
    | cons e rest ih =>
      simp only [clean_and_filter_ents]
      split_ifs with h2 h1
      · exact ih.cons₂ _
      · exact absurd (le_trans h h2) h1
      · exact ih.cons _
      · exact ih
  exact ⟨hs, hs.length_le⟩

/-- Witness for C8 at a concrete list and thresholds 0 ≤ 1. -/
theorem c8_filter_antitone_witness :
    (clean_and_filter_ents
        [⟨"PER", .int 0, .int 3, "abc".toList, .float (mkRat 1 2)⟩] 1).Sublist
      (clean_and_filter_ents
        [⟨"PER", .int 0, .int 3, "abc".toList, .float (mkRat 1 2)⟩] 0) ∧
    (clean_and_filter_ents
        [⟨"PER", .int 0, .int 3, "abc".toList, .float (mkRat 1 2)⟩] 1).length ≤
      (clean_and_filter_ents
        [⟨"PER", .int 0, .int 3, "abc".toList, .float (mkRat 1 2)⟩] 0).length :=
  c8_filter_antitone _ 0 1 (by decide)

/-- C9. A span whose confidence cannot be parsed as a float is coerced to
confidence 0.0 instead of failing the line; offsets that int() rejects are
left unmodified; and the span survives the filter exactly when the threshold
is at most 0, so it is excluded for every τ > 0 and included when τ = 0. -/
theorem c9_unparseable_confidence (e : Ent) (rest : List Ent) (m : ℚ) (s : String)
    (hs : e.score = .nonNum s) :
    (cleanOne e).score = .float 0 ∧
    (e.start.toIntC = none → (cleanOne e).start = e.start) ∧
    (e.stop.toIntC = none → (cleanOne e).stop = e.stop) ∧
    clean_and_filter_ents (e :: rest) m =
      (if (0:ℚ) ≥ m then [cleanOne e] else []) ++ clean_and_filter_ents rest m := by
  refine ⟨by simp [cleanOne, hs, PyNum.asQ], fun h => by simp [cleanOne, h],
    fun h => by simp [cleanOne, h], ?_⟩
  simp only [clean_and_filter_ents, hs, PyNum.asQ, Option.getD_none]
  split_ifs <;> simp

/-- Witness for C9 at a concrete malformed span. -/
theorem c9_unparseable_confidence_witness :
    (cleanOne ⟨"PER", .nonNum "a", .int 4, "x".toList, .nonNum "oops"⟩).score = .float 0 ∧
    ((⟨"PER", .nonNum "a", .int 4, "x".toList, .nonNum "oops"⟩ : Ent).start.toIntC = none →
      (cleanOne ⟨"PER", .nonNum "a", .int 4, "x".toList, .nonNum "oops"⟩).start = .nonNum "a") ∧
    ((⟨"PER", .nonNum "a", .int 4, "x".toList, .nonNum "oops"⟩ : Ent).stop.toIntC = none →
      (cleanOne ⟨"PER", .nonNum "a", .int 4, "x".toList, .nonNum "oops"⟩).stop = .int 4) ∧
    clean_and_filter_ents [⟨"PER", .nonNum "a", .int 4, "x".toList, .nonNum "oops"⟩] 1 =
      (if (0:ℚ) ≥ 1 then [cleanOne ⟨"PER", .nonNum "a", .int 4, "x".toList, .nonNum "oops"⟩]
       else []) ++ clean_and_filter_ents [] 1 :=
  c9_unparseable_confidence _ [] 1 "oops" rfl

/- Lemmas about stripping and splitting, toward the street filter. -/

theorem dropWhile_head_false (p : Char → Bool) (l : List Char) :
    ∀ c cs, l.dropWhile p = c :: cs → p c = false := by
  induction l with
  | nil => intro c cs h; simp at h
  | cons d ds ih =>
    intro c cs h
    rw [List.dropWhile_cons] at h
    by_cases hd : p d = true
    · rw [if_pos hd] at h; exact ih c cs h
    · rw [if_neg hd] at h
      injection h with h1 _
      subst h1
      simpa using hd

theorem getLast?_dropWhile (p : Char → Bool) (l : List Char) :
    l.dropWhile p = [] ∨ (l.dropWhile p).getLast? = l.getLast? := by
  induction l with
  | nil => left; rfl
  | cons d ds ih =>
    rw [List.dropWhile_cons]
    by_cases hd : p d = true
    · rw [if_pos hd]
      cases ds with
      | nil => left; rfl
      | cons e ds' =>
        rcases ih with h | h
        · left; exact h
        · right; rw [h, List.getLast?_cons_cons]
    · rw [if_neg hd]; right; rfl

theorem pyStrip_headOk (t : List Char) (c : Char) (cs : List Char)
    (h : pyStrip t = c :: cs) : pws c = false := by
  unfold pyStrip at h
  have h0 : ((t.dropWhile pws).reverse.dropWhile pws).getLast? = some c := by
    have h1 := congrArg List.head? h
    rw [List.head?_reverse] at h1
    simpa using h1
  rcases getLast?_dropWhile pws (t.dropWhile pws).reverse with h2 | h2
  · rw [h2] at h; simp at h
  · rw [h2, List.getLast?_reverse] at h0
    cases hd : t.dropWhile pws with
    | nil => rw [hd] at h0; simp at h0
    | cons a as =>
      rw [hd] at h0
      simp only [List.head?_cons, Option.some.injEq] at h0
      subst h0
      exact dropWhile_head_false pws t _ _ hd

theorem pyStrip_lastOk (t : List Char) (c : Char)
    (h : (pyStrip t).getLast? = some c) : pws c = false := by
  unfold pyStrip at h
  rw [List.getLast?_reverse] at h
  cases hd : (t.dropWhile pws).reverse.dropWhile pws with
  | nil => rw [hd] at h; simp at h
  | cons a as =>
    rw [hd] at h
    simp only [List.head?_cons, Option.some.injEq] at h
    subst h
    exact dropWhile_head_false pws _ _ _ hd

theorem pySplitGo_eq_nil (l : List Char) : ∀ cur, pySplitGo cur l = [] →
    cur = [] ∧ ∀ c ∈ l, pws c = true := by
  induction l with
  | nil =>
    intro cur h
    by_cases hc : cur = []
    · exact ⟨hc, by simp⟩
    · simp [pySplitGo, hc] at h
  | cons c cs ih =>
    intro cur h
    simp only [pySplitGo] at h
    by_cases hc : pws c = true
    · rw [if_pos hc] at h
      by_cases hcur : cur = []
      · rw [if_pos hcur] at h
        obtain ⟨_, h2⟩ := ih [] h
        refine ⟨hcur, ?_⟩
        intro d hd
        rcases List.mem_cons.mp hd with h3 | h3
        · subst h3; exact hc
        · exact h2 d h3
      · rw [if_neg hcur] at h; simp at h
    · rw [if_neg hc] at h
      obtain ⟨h1, _⟩ := ih (c :: cur) h
      simp at h1

theorem last_of_ws_run (l : List Char) (hall : ∀ c ∈ l, pws c = true) :
    ∀ d, pws d = true → ∃ e, (d :: l).getLast? = some e ∧ pws e = true := by
  induction l with
  | nil => intro d hd; exact ⟨d, rfl, hd⟩
  | cons x xs ih =>
    intro d _
    obtain ⟨e, he1, he2⟩ :=
      ih (fun c hc => hall c (by simp [hc])) x (hall x (by simp))
    exact ⟨e, by rw [List.getLast?_cons_cons]; exact he1, he2⟩

theorem pySplit_single (s : List Char)
    (hh : ∀ c cs, s = c :: cs → pws c = false)
    (hl : ∀ c, s.getLast? = some c → pws c = false)
    (w : List Char) (h : pySplit s = [w]) : s = w := by
  cases s with
  | nil => simp [pySplit, pySplitGo] at h
  | cons c cs =>
    have hc : pws c = false := hh c cs rfl
    have hkch : ∀ d ∈ c :: cs.takeWhile (fun x => !pws x), pws d = false := by
      intro d hd
      rcases List.mem_cons.mp hd with h1 | h1
      · subst h1; exact hc
      · have := List.mem_takeWhile_imp h1; simpa using this
    have hdec : c :: cs =
        (c :: cs.takeWhile (fun x => !pws x)) ++ cs.dropWhile (fun x => !pws x) := by
      simp [List.takeWhile_append_dropWhile]
    have h1 : pySplitGo ((c :: cs.takeWhile (fun x => !pws x)).reverse ++ [])
        (cs.dropWhile (fun x => !pws x)) = [w] := by
      rw [← pySplitGo_word _ [] _ hkch, ← hdec]
      exact h
    cases hr : cs.dropWhile (fun x => !pws x) with
    | nil =>
      rw [hr] at h1
      have hne : (c :: cs.takeWhile (fun x => !pws x)).reverse ++ ([] : List Char) ≠ [] := by
        simp
      simp only [pySplitGo, if_neg hne] at h1
      injection h1 with h2 _
      rw [← h2, hdec, hr]
      simp
    | cons d r' =>
      rw [hr] at h1
      have hd : pws d = true := by
        have := dropWhile_head_false (fun x => !pws x) cs d r' hr
        simpa using this
      have hne : (c :: cs.takeWhile (fun x => !pws x)).reverse ++ ([] : List Char) ≠ [] := by
        simp
      simp only [pySplitGo, hd, if_true, if_neg hne] at h1
      injection h1 with h2 h3
      obtain ⟨_, hall⟩ := pySplitGo_eq_nil r' [] h3
      obtain ⟨e, he1, he2⟩ := last_of_ws_run r' hall d hd
      have hs : c :: cs = (c :: cs.takeWhile (fun x => !pws x)) ++ (d :: r') := by
        rw [hdec, hr]
      have hlast : (c :: cs).getLast? = some e := by
        rw [hs, List.getLast?_append, he1]
        rfl
      exact absurd (hl e hlast) (by simp [he2])

/-- C5. Street suppression: when filter_streets is on, a span is suppressed
exactly under the spec's condition (lowercased and stripped surface text in
the vocabulary, or its last whitespace-delimited token in the vocabulary) and
only LOCATION spans are affected; suppressed spans are removed before masking
and counted as filtered; with the flag off, nothing is filtered and a LOC
span with surface text "State St" is masked as [LOC_REDACTED]. -/
theorem c5_street_suppression :
    (∀ txt, should_filter_location txt true = specStreetSuppressed txt) ∧
    (∀ txt, should_filter_location txt false = false) ∧
    (∀ text ents g2t, mask_ner_multi text ents g2t false =
      (maskLoop g2t text
        (sortDesc (ents.filter (fun e => (alookup g2t e.group).isSome)))).map
        (fun r => (r.1, r.2, cnt0))) ∧
    (∀ text g (a b : ℤ) w sc rest,
      streetPass text
          ({group := g, start := .int a, stop := .int b, word := w, score := sc} :: rest) =
        (streetPass text rest).map (fun r =>
          if g == "LOC" && should_filter_location (pySlice text a b) true
          then (r.1, bump r.2 g)
          else ({group := g, start := .int a, stop := .int b, word := w,
                 score := sc} :: r.1, r.2))) ∧
    ((mask_ner_multi "I live on State St".toList
        [⟨"LOC", .int 10, .int 18, "State St".toList, .float 1⟩]
        [("PER", "[PERSON_REDACTED]".toList), ("LOC", "[LOC_REDACTED]".toList)] false).map
      (fun r => (r.1, r.2.1 "LOC", r.2.2 "LOC")) =
      some ("I live on [LOC_REDACTED]".toList, 1, 0)) ∧
    ((mask_ner_multi "I live on State St".toList
        [⟨"LOC", .int 10, .int 18, "State St".toList, .float 1⟩]
        [("PER", "[PERSON_REDACTED]".toList), ("LOC", "[LOC_REDACTED]".toList)] true).map
      (fun r => (r.1, r.2.1 "LOC", r.2.2 "LOC")) =
      some ("I live on State St".toList, 0, 1)) := by
  refine ⟨?_, ?_, ?_, ?_, by decide, by decide⟩
  · intro txt
    simp only [should_filter_location, specStreetSuppressed]
    by_cases hcon : pyStrip (txt.map Char.toLower) ∈ COMMON_STREET_WORDS
    · simp [hcon]
    · cases hW : pySplit (pyStrip (txt.map Char.toLower)) with
      | nil => simp [hW, hcon]
      | cons w1 rest =>
        cases rest with
        | nil =>
          by_cases hw : w1 ∈ COMMON_STREET_WORDS
          · exfalso
            have hlow : pyStrip (txt.map Char.toLower) = w1 :=
              pySplit_single _ (fun c cs hc => pyStrip_headOk _ c cs hc)
                (fun c hc => pyStrip_lastOk _ c hc) w1 hW
            rw [hlow] at hcon
            exact hcon hw
          · simp [hW, hw, hcon]
        | cons w2 rest' =>
          have h2 : 2 ≤ (w1 :: w2 :: rest').length := by
            simp only [List.length_cons]
            omega
          obtain ⟨lw, hlw⟩ : ∃ lw, (w2 :: rest').getLast? = some lw :=
            Option.isSome_iff_exists.mp (List.getLast?_isSome.mpr (by simp))
          simp [hW, List.getLast?_cons_cons, hlw, h2, hcon]
  · intro txt
    simp [should_filter_location]
  · intro text ents g2t
    unfold mask_ner_multi
    cases h : maskLoop g2t text
        (sortDesc (ents.filter (fun e => (alookup g2t e.group).isSome))) with
    | none => simp [h]
    | some r => simp [h]
  · intro text g a b w sc rest
    cases h : streetPass text rest with
    | none => simp [streetPass, PyNum.sliceIdx, h]
    | some r =>
      cases hc : (g == "LOC" && should_filter_location (pySlice text a b) true) with
      | false =>
        simp [streetPass, PyNum.sliceIdx, h, hc]
        intro hg
        rw [hg] at hc
        simpa using hc
      | true =>
        simp [streetPass, PyNum.sliceIdx, h, hc]
        simpa using hc

/- Lemmas toward the masking theorem. -/

theorem okSpanB_facts (len : Nat) (e : Ent) (h : okSpanB len e = true) :
    e.start = .int (natStart e : ℤ) ∧ e.stop = .int (natStop e : ℤ) ∧
    natStart e < natStop e ∧ natStop e ≤ len ∧
    startKey e = (natStart e : ℚ) := by
  cases hs : e.start with
  | int a =>
    cases ht : e.stop with
    | int b =>
      simp only [okSpanB, hs, ht, Bool.and_eq_true, decide_eq_true_eq] at h
      obtain ⟨⟨h0, h1⟩, h2⟩ := h
      have hns : natStart e = a.toNat := by simp [natStart, hs, PyNum.toIntC]
      have hnt : natStop e = b.toNat := by simp [natStop, ht, PyNum.toIntC]
      have hZs : ((natStart e : ℕ) : ℤ) = a := by omega
      have hZt : ((natStop e : ℕ) : ℤ) = b := by omega
      refine ⟨congrArg PyNum.int hZs.symm,
        congrArg PyNum.int hZt.symm, by omega, by omega, ?_⟩
      simp only [startKey, hs, PyNum.asQ, Option.getD_some]
      exact_mod_cast congrArg (fun z : ℤ => (z : ℚ)) hZs.symm
    | float q => simp [okSpanB, hs, ht] at h
    | nonNum s => simp [okSpanB, hs, ht] at h
  | float q => cases ht : e.stop <;> simp [okSpanB, hs, ht] at h
  | nonNum s => cases ht : e.stop <;> simp [okSpanB, hs, ht] at h

theorem okSpanB_of_le (len len' : Nat) (f : Ent) (h : okSpanB len f = true)
    (h2 : natStop f ≤ len') : okSpanB len' f = true := by
  obtain ⟨hs, ht, hlt, _, _⟩ := okSpanB_facts _ _ h
  simp only [okSpanB, hs, ht, Bool.and_eq_true, decide_eq_true_eq]
  refine ⟨⟨?_, ?_⟩, ?_⟩ <;> omega

theorem pyBound_nat (len : Nat) (a : ℤ) (h0 : 0 ≤ a) (h1 : a ≤ (len : ℤ)) :
    pyBound len a = a.toNat := by
  unfold pyBound
  rw [if_neg (not_lt.mpr h0)]
  have h2 : a.toNat ≤ len := by omega
  exact min_eq_left h2

theorem pyStitch_eq (t : List Char) (a b : ℤ) (tok : List Char)
    (h0 : 0 ≤ a) (h1 : a ≤ b) (h2 : b ≤ (t.length : ℤ)) :
    pyStitch t a b tok = t.take a.toNat ++ tok ++ t.drop b.toNat := by
  unfold pyStitch
  rw [pyBound_nat _ _ h0 (le_trans h1 h2), pyBound_nat _ _ (le_trans h0 h1) h2]

theorem cntOf_cons (e : Ent) (l : List Ent) : cntOf (e :: l) = bump (cntOf l) e.group := by
  funext g
  simp only [cntOf, bump, List.countP_cons]
  by_cases h : g = e.group
  · subst h; simp
  · have h2 : (e.group == g) = false := by
      simp only [beq_eq_false_iff_ne, ne_eq]
      exact fun hc => h hc.symm
    simp [h, h2]

theorem chunks_snoc (g2t : List (String × List Char)) (t : List Char) (e : Ent)
    (hsa : natStart e ≤ t.length) :
    ∀ (A : List Ent) (pos : Nat), pos ≤ natStart e →
    (∀ f ∈ A, natStart f ≤ natStart e ∧ natStop f ≤ natStart e) →
    chunks g2t (t.take (natStart e) ++ (tokOf g2t e ++ t.drop (natStop e))) pos A =
      chunks g2t t pos (A ++ [e]) := by
  intro A
  induction A with
  | nil =>
    intro pos hpos _
    have hlen : pos ≤ (t.take (natStart e)).length := by
      rw [List.length_take]; omega
    show (t.take (natStart e) ++ (tokOf g2t e ++ t.drop (natStop e))).drop pos = _
    rw [List.drop_append_of_le_length hlen]
    simp [chunks]
  | cons f A' ih =>
    intro pos hpos hin
    obtain ⟨hf1, hf2⟩ := hin f (by simp)
    have htk : (t.take (natStart e) ++ (tokOf g2t e ++ t.drop (natStop e))).take (natStart f)
        = t.take (natStart f) := by
      rw [List.take_append_of_le_length (by rw [List.length_take]; omega)]
      rw [List.take_take, min_eq_left hf1]
    simp only [chunks, List.cons_append, htk]
    rw [ih (natStop f) hf2 (fun g hg => hin g (by simp [hg]))]
    rfl

theorem maskLoop_desc (g2t : List (String × List Char)) :
    ∀ (D : List Ent) (t : List Char),
    (∀ e ∈ D, okSpanB t.length e = true) →
    (∀ e ∈ D, (alookup g2t e.group).isSome = true) →
    D.Pairwise (fun a b => disjB a b = true) →
    D.Sorted maskRel →
    maskLoop g2t t D = some (chunks g2t t 0 D.reverse, cntOf D) := by
  intro D
  induction D with
  | nil =>
    intro t _ _ _ _
    have h2 : cntOf [] = cnt0 := funext fun g => by simp [cntOf, cnt0]
    simp [maskLoop, h2, chunks]
  | cons e D' ih =>
    intro t hb htok hd hs
    obtain ⟨hse, hte, hlt, hle, hkey⟩ := okSpanB_facts _ _ (hb e (by simp))
    obtain ⟨tok, htok1⟩ := Option.isSome_iff_exists.mp (htok e (by simp))
    have hsa : natStart e ≤ t.length := by omega
    have hbefore : ∀ f ∈ D', natStop f ≤ natStart e := by
      intro f hf
      obtain ⟨hsf, htf, hltf, hlef, hkeyf⟩ := okSpanB_facts _ _ (hb f (by simp [hf]))
      have hdisj := (List.pairwise_cons.mp hd).1 f hf
      have hrel : maskRel e f := (List.sorted_cons.mp hs).1 f hf
      have hrel2 : startKey f ≤ startKey e := hrel
      rw [hkey, hkeyf] at hrel2
      have hst : natStart f ≤ natStart e := by exact_mod_cast hrel2
      simp only [disjB, Bool.or_eq_true, decide_eq_true_eq] at hdisj
      rcases hdisj with h | h
      · omega
      · exact h
    have hstitch : pyStitch t ((natStart e : ℕ) : ℤ) ((natStop e : ℕ) : ℤ) tok =
        t.take (natStart e) ++ (tok ++ t.drop (natStop e)) := by
      rw [pyStitch_eq t _ _ tok (by omega) (by exact_mod_cast le_of_lt hlt)
        (by exact_mod_cast hle)]
      rw [Int.toNat_natCast, Int.toNat_natCast, List.append_assoc]
    have hlen1 : natStart e ≤ (t.take (natStart e) ++ (tok ++ t.drop (natStop e))).length := by
      rw [List.length_append, List.length_take]
      omega
    have ihres := ih (t.take (natStart e) ++ (tok ++ t.drop (natStop e)))
      (fun f hf => okSpanB_of_le _ _ f (hb f (by simp [hf]))
        (le_trans (hbefore f hf) hlen1))
      (fun f hf => htok f (by simp [hf]))
      (List.pairwise_cons.mp hd).2
      (List.sorted_cons.mp hs).2
    have hch : chunks g2t (t.take (natStart e) ++ (tokOf g2t e ++ t.drop (natStop e))) 0
        D'.reverse = chunks g2t t 0 (D'.reverse ++ [e]) :=
      chunks_snoc g2t t e hsa D'.reverse 0 (by omega)
        (fun f hf => by
          have hf2 := hbefore f (List.mem_reverse.mp hf)
          obtain ⟨_, _, hltf, _, _⟩ := okSpanB_facts _ _ (hb f (by
            simp [List.mem_reverse.mp hf]))
          exact ⟨by omega, hf2⟩)
    have htokOf : tokOf g2t e = tok := by simp [tokOf, htok1]
    rw [htokOf] at hch
    rw [maskLoop, hse, hte]
    simp only [PyNum.toIntC, Option.bind_eq_bind, Option.some_bind, htok1, hstitch, ihres]
    rw [List.reverse_cons, ← hch, cntOf_cons]

theorem chunks_length (g2t : List (String × List Char)) (t : List Char) :
    ∀ (A : List Ent) (pos : Nat), chainable t.length pos A → pos ≤ t.length →
    (chunks g2t t pos A).length + pos + sumSpans A = t.length + sumToks g2t A := by
  intro A
  induction A with
  | nil =>
    intro pos _ hpos
    simp only [chunks, sumSpans, sumToks, List.length_drop, List.map_nil,
      List.sum_nil]
    omega
  | cons e A' ih =>
    intro pos hch hpos
    obtain ⟨h1, h2, h3, h4⟩ := hch
    have ihr := ih (natStop e) h4 h3
    have hm : min (natStart e) t.length = natStart e := min_eq_left (le_trans h2 h3)
    simp only [chunks, List.length_append, List.length_drop, List.length_take,
      sumSpans, sumToks, List.map_cons, List.sum_cons, hm] at ihr ⊢
    omega

theorem chainable_of (len : Nat) :
    ∀ (A : List Ent) (pos : Nat),
    (∀ e ∈ A, okSpanB len e = true) →
    A.Pairwise (fun a b => disjB a b = true) →
    A.Pairwise (fun a b => natStart a < natStart b) →
    (∀ e ∈ A, pos ≤ natStart e) →
    chainable len pos A := by
  intro A
  induction A with
  | nil => intro pos _ _ _ _; trivial
  | cons e A' ih =>
    intro pos hb hd hsrt hpos
    obtain ⟨_, _, hlt, hle, _⟩ := okSpanB_facts _ _ (hb e (by simp))
    refine ⟨hpos e (by simp), by omega, hle, ?_⟩
    refine ih (natStop e) (fun f hf => hb f (by simp [hf]))
      (List.pairwise_cons.mp hd).2 (List.pairwise_cons.mp hsrt).2 ?_
    intro f hf
    have hdisj := (List.pairwise_cons.mp hd).1 f hf
    have hstrict := (List.pairwise_cons.mp hsrt).1 f hf
    obtain ⟨_, _, hltf, _, _⟩ := okSpanB_facts _ _ (hb f (by simp [hf]))
    simp only [disjB, Bool.or_eq_true, decide_eq_true_eq] at hdisj
    rcases hdisj with h | h
    · exact h
    · omega

theorem pairwise_strict_of (len : Nat) (l : List Ent)
    (hb : ∀ e ∈ l, okSpanB len e = true)
    (hd : l.Pairwise (fun a b => disjB a b = true))
    (hs : l.Pairwise (fun a b => startKey a ≤ startKey b)) :
    l.Pairwise (fun a b => natStart a < natStart b) := by
  refine List.Pairwise.imp_of_mem ?_ (hd.and hs)
  intro a b ha hb2 hab
  obtain ⟨hdisj, hkey⟩ := hab
  obtain ⟨_, _, hlta, _, hka⟩ := okSpanB_facts _ _ (hb a ha)
  obtain ⟨_, _, hltb, _, hkb⟩ := okSpanB_facts _ _ (hb b hb2)
  rw [hka, hkb] at hkey
  have hkeyn : natStart a ≤ natStart b := by exact_mod_cast hkey
  simp only [disjB, Bool.or_eq_true, decide_eq_true_eq] at hdisj
  rcases hdisj with h | h
  · omega
  · omega

theorem mask_ner_multi_nofilter (text : List Char) (ents : List Ent)
    (g2t : List (String × List Char)) :
    mask_ner_multi text ents g2t false =
      (maskLoop g2t text
        (sortDesc (ents.filter (fun e => (alookup g2t e.group).isSome)))).map
        (fun r => (r.1, r.2, cnt0)) := by
  unfold mask_ner_multi
  cases h : maskLoop g2t text
      (sortDesc (ents.filter (fun e => (alookup g2t e.group).isSome))) with
  | none => simp [h]
  | some r => simp [h]

/-- C1. For non-overlapping in-bounds selected spans, mask_ner_multi succeeds
and returns exactly the original text outside the spans with the category
tokens in place of the spans (laid out in ascending start order), total length
len(original) - sum of span widths + sum of token widths, per-category counts
equal to the number of selected spans of each category, and no filtered
counts. -/
theorem c1_masking (text : List Char) (ents : List Ent)
    (g2t : List (String × List Char))
    (hb : ∀ e ∈ ents.filter (fun e => (alookup g2t e.group).isSome),
      okSpanB text.length e = true)
    (hd : (ents.filter (fun e => (alookup g2t e.group).isSome)).Pairwise
      (fun a b => disjB a b = true)) :
    mask_ner_multi text ents g2t false =
      some (chunks g2t text 0
          (ascSort (ents.filter (fun e => (alookup g2t e.group).isSome))),
        cntOf (ents.filter (fun e => (alookup g2t e.group).isSome)), cnt0) ∧
    (chunks g2t text 0
        (ascSort (ents.filter (fun e => (alookup g2t e.group).isSome)))).length
      + sumSpans (ents.filter (fun e => (alookup g2t e.group).isSome)) =
      text.length + sumToks g2t (ents.filter (fun e => (alookup g2t e.group).isSome)) := by
  set sel := ents.filter (fun e => (alookup g2t e.group).isSome) with hsel
  have hpermD : (sortDesc sel).Perm sel := List.perm_insertionSort maskRel sel
  have hpermA : (ascSort sel).Perm sel := List.perm_insertionSort ascRel sel
  have hsymm : ∀ {x y : Ent}, disjB x y = true → disjB y x = true := by
    intro x y h
    simp only [disjB, Bool.or_eq_true, decide_eq_true_eq] at h ⊢
    exact Or.symm h
  have hbD : ∀ e ∈ sortDesc sel, okSpanB text.length e = true :=
    fun e he => hb e (hpermD.mem_iff.mp he)
  have hdD : (sortDesc sel).Pairwise (fun a b => disjB a b = true) :=
    (List.Perm.pairwise_iff hsymm hpermD).mpr hd
  have htokD : ∀ e ∈ sortDesc sel, (alookup g2t e.group).isSome = true := by
    intro e he
    have hmem := hpermD.mem_iff.mp he
    rw [hsel] at hmem
    exact (List.mem_filter.mp hmem).2
  have hsD : (sortDesc sel).Sorted maskRel := List.sorted_insertionSort maskRel sel
  have hmask := maskLoop_desc g2t (sortDesc sel) text hbD htokD hdD hsD
  have hrevperm : (sortDesc sel).reverse.Perm (ascSort sel) :=
    ((sortDesc sel).reverse_perm.trans hpermD).trans hpermA.symm
  have hbR : ∀ e ∈ (sortDesc sel).reverse, okSpanB text.length e = true :=
    fun e he => hbD e (List.mem_reverse.mp he)
  have hdR : (sortDesc sel).reverse.Pairwise (fun a b => disjB a b = true) := by
    rw [List.pairwise_reverse]
    exact hdD.imp (fun h => hsymm h)
  have hsR : (sortDesc sel).reverse.Pairwise (fun a b => startKey a ≤ startKey b) := by
    rw [List.pairwise_reverse]
    exact hsD
  have hstrictR := pairwise_strict_of text.length _ hbR hdR hsR
  have hbA : ∀ e ∈ ascSort sel, okSpanB text.length e = true :=
    fun e he => hb e (hpermA.mem_iff.mp he)
  have hdA : (ascSort sel).Pairwise (fun a b => disjB a b = true) :=
    (List.Perm.pairwise_iff hsymm hpermA).mpr hd
  have hsA : (ascSort sel).Sorted ascRel := List.sorted_insertionSort ascRel sel
  have hstrictA := pairwise_strict_of text.length _ hbA hdA hsA
  haveI : IsAntisymm Ent (fun a b => natStart a < natStart b) :=
    ⟨fun a b h1 h2 => absurd h2 (by omega)⟩
  have heq : (sortDesc sel).reverse = ascSort sel :=
    List.eq_of_perm_of_sorted hrevperm hstrictR hstrictA
  have hcnt : cntOf (sortDesc sel) = cntOf sel :=
    funext fun g => hpermD.countP_eq _
  constructor
  · rw [mask_ner_multi_nofilter, ← hsel, hmask, heq, hcnt]
    rfl
  · have hchain := chainable_of text.length (ascSort sel) 0 hbA hdA hstrictA
      (fun _ _ => Nat.zero_le _)
    have hlen := chunks_length g2t text (ascSort sel) 0 hchain (Nat.zero_le _)
    have hsp : sumSpans (ascSort sel) = sumSpans sel := (hpermA.map _).sum_eq
    have htk : sumToks g2t (ascSort sel) = sumToks g2t sel := (hpermA.map _).sum_eq
    rw [hsp, htk] at hlen
    omega

/-- Witness for C1 at a concrete text and two disjoint spans. -/
theorem c1_masking_witness :
    mask_ner_multi "ab cde f".toList
        [⟨"PER", .int 3, .int 6, "cde".toList, .float 1⟩,
         ⟨"LOC", .int 0, .int 2, "ab".toList, .float 1⟩]
        [("PER", "[P]".toList), ("LOC", "[L]".toList)] false =
      some (chunks [("PER", "[P]".toList), ("LOC", "[L]".toList)] "ab cde f".toList 0
          (ascSort ([⟨"PER", .int 3, .int 6, "cde".toList, .float 1⟩,
            ⟨"LOC", .int 0, .int 2, "ab".toList, .float 1⟩].filter
            (fun e => (alookup [("PER", "[P]".toList), ("LOC", "[L]".toList)] e.group).isSome))),
        cntOf ([⟨"PER", .int 3, .int 6, "cde".toList, .float 1⟩,
            ⟨"LOC", .int 0, .int 2, "ab".toList, .float 1⟩].filter
            (fun e => (alookup [("PER", "[P]".toList), ("LOC", "[L]".toList)] e.group).isSome)),
        cnt0) ∧
    (chunks [("PER", "[P]".toList), ("LOC", "[L]".toList)] "ab cde f".toList 0
        (ascSort ([⟨"PER", .int 3, .int 6, "cde".toList, .float 1⟩,
          ⟨"LOC", .int 0, .int 2, "ab".toList, .float 1⟩].filter
          (fun e => (alookup [("PER", "[P]".toList), ("LOC", "[L]".toList)] e.group).isSome)))).length
      + sumSpans ([⟨"PER", .int 3, .int 6, "cde".toList, .float 1⟩,
          ⟨"LOC", .int 0, .int 2, "ab".toList, .float 1⟩].filter
          (fun e => (alookup [("PER", "[P]".toList), ("LOC", "[L]".toList)] e.group).isSome)) =
      "ab cde f".toList.length
        + sumToks [("PER", "[P]".toList), ("LOC", "[L]".toList)]
          ([⟨"PER", .int 3, .int 6, "cde".toList, .float 1⟩,
            ⟨"LOC", .int 0, .int 2, "ab".toList, .float 1⟩].filter
            (fun e => (alookup [("PER", "[P]".toList), ("LOC", "[L]".toList)] e.group).isSome)) :=
  c1_masking _ _ _ (by decide) (by decide)

/- Lemmas about the regex engine. -/

theorem runs_bounds (t : List Char) : ∀ (re : RE) (i j : Nat) (sv : List Nat),
    (j, sv) ∈ runs t re i → i ≤ j ∧ ∀ s ∈ sv, i ≤ s ∧ s ≤ j := by
  intro re
  induction re with
  | cls p =>
    intro i j sv h
    simp only [runs] at h
    split at h
    · split at h
      · simp only [List.mem_singleton, Prod.mk.injEq] at h
        obtain ⟨h1, h2⟩ := h
        subst h1; subst h2
        exact ⟨by omega, by simp⟩
      · simp at h
    · simp at h
  | seq a b iha ihb =>
    intro i j sv h
    simp only [runs, List.mem_flatMap, List.mem_map] at h
    obtain ⟨⟨j1, s1⟩, h1, ⟨j2, s2⟩, h2, h3⟩ := h
    obtain ⟨h4, h5⟩ := Prod.mk.injEq .. |>.mp h3
    subst h4; subst h5
    obtain ⟨hja, hsa⟩ := iha i j1 s1 h1
    obtain ⟨hjb, hsb⟩ := ihb j1 _ s2 h2
    refine ⟨by omega, ?_⟩
    intro s hs
    rcases List.mem_append.mp hs with h | h
    · obtain ⟨hx, hy⟩ := hsa s h; exact ⟨hx, by omega⟩
    · obtain ⟨hx, hy⟩ := hsb s h; exact ⟨by omega, hy⟩
  | alt a b iha ihb =>
    intro i j sv h
    simp only [runs, List.mem_append] at h
    rcases h with h | h
    · exact iha i j sv h
    · exact ihb i j sv h
  | opt a iha =>
    intro i j sv h
    simp only [runs, List.mem_append, List.mem_singleton, Prod.mk.injEq] at h
    rcases h with h | ⟨h1, h2⟩
    · exact iha i j sv h
    · subst h1; subst h2; exact ⟨by omega, by simp⟩
  | starCls p =>
    intro i j sv h
    simp only [runs, List.mem_map, List.mem_range] at h
    obtain ⟨d, hd, h2⟩ := h
    obtain ⟨h3, h4⟩ := Prod.mk.injEq .. |>.mp h2
    subst h3; subst h4
    exact ⟨by omega, by simp⟩
  | look f =>
    intro i j sv h
    simp only [runs] at h
    split at h
    · simp only [List.mem_singleton, Prod.mk.injEq] at h
      obtain ⟨h1, h2⟩ := h
      subst h1; subst h2
      exact ⟨by omega, by simp⟩
    · simp at h
  | save =>
    intro i j sv h
    simp only [runs, List.mem_singleton, Prod.mk.injEq] at h
    obtain ⟨h1, h2⟩ := h
    subst h1; subst h2
    refine ⟨by omega, ?_⟩
    intro s hs
    simp only [List.mem_singleton] at hs
    subst hs
    exact ⟨by omega, by omega⟩

theorem runs_seq_mem (t : List Char) (a b : RE) (i j : Nat) (sv : List Nat) :
    (j, sv) ∈ runs t (.seq a b) i ↔
      ∃ j1 s1 s2, (j1, s1) ∈ runs t a i ∧ (j, s2) ∈ runs t b j1 ∧ sv = s1 ++ s2 := by
  simp only [runs, List.mem_flatMap, List.mem_map]
  constructor
  · rintro ⟨⟨j1, s1⟩, h1, ⟨j2, s2⟩, h2, h3⟩
    obtain ⟨h4, h5⟩ := Prod.mk.injEq .. |>.mp h3
    subst h4
    exact ⟨j1, s1, s2, h1, h2, h5.symm⟩
  · rintro ⟨j1, s1, s2, h1, h2, rfl⟩
    exact ⟨⟨j1, s1⟩, h1, ⟨j, s2⟩, h2, rfl⟩

theorem runs_eps (t : List Char) (i : Nat) : runs t eps i = [(i, [])] := by
  simp [eps, runs, bTest]

theorem runs_chain_append (t : List Char) (l1 : List RE) :
    ∀ (l2 : List RE) (i j : Nat) (sv : List Nat),
    ((j, sv) ∈ runs t (chain (l1 ++ l2)) i ↔
      ∃ j1 s1 s2, (j1, s1) ∈ runs t (chain l1) i ∧ (j, s2) ∈ runs t (chain l2) j1 ∧
        sv = s1 ++ s2) := by
  induction l1 with
  | nil =>
    intro l2 i j sv
    constructor
    · intro h
      exact ⟨i, [], sv, by simp [chain, runs_eps], h, rfl⟩
    · rintro ⟨j1, s1, s2, h1, h2, rfl⟩
      have : j1 = i ∧ s1 = [] := by
        simpa [chain, runs_eps, Prod.ext_iff] using h1
      obtain ⟨rfl, rfl⟩ := this
      simpa using h2
  | cons r l1' ih =>
    intro l2 i j sv
    show (j, sv) ∈ runs t (.seq r (chain (l1' ++ l2))) i ↔ _
    rw [runs_seq_mem]
    constructor
    · rintro ⟨j1, s1, s2, h1, h2, rfl⟩
      rw [ih] at h2
      obtain ⟨j2, s3, s4, h3, h4, rfl⟩ := h2
      refine ⟨j2, s1 ++ s3, s4, ?_, h4, by simp⟩
      show (j2, s1 ++ s3) ∈ runs t (.seq r (chain l1')) i
      rw [runs_seq_mem]
      exact ⟨j1, s1, s3, h1, h3, rfl⟩
    · rintro ⟨j1, s1, s2, h1, h2, rfl⟩
      have h1' : (j1, s1) ∈ runs t (.seq r (chain l1')) i := h1
      rw [runs_seq_mem] at h1'
      obtain ⟨j2, s3, s4, h3, h4, rfl⟩ := h1'
      refine ⟨j2, s3, s4 ++ s2, h3, ?_, by simp⟩
      rw [ih]
      exact ⟨j1, s4, s2, h4, h2, rfl⟩

theorem runs_save_mem (t : List Char) (i j : Nat) (sv : List Nat) :
    (j, sv) ∈ runs t RE.save i ↔ j = i ∧ sv = [i] := by
  simp [runs, Prod.ext_iff]

theorem runs_look_mem (t : List Char) (f : Option Char → Option Char → Bool)
    (i j : Nat) (sv : List Nat) :
    (j, sv) ∈ runs t (.look f) i ↔
      f (prevChar t i) t[i]? = true ∧ j = i ∧ sv = [] := by
  by_cases hf : f (prevChar t i) t[i]? = true
  · simp [runs, hf, Prod.ext_iff]
  · simp [runs, hf]

theorem runs_cls_mem (t : List Char) (p : Char → Bool) (i j : Nat) (sv : List Nat) :
    (j, sv) ∈ runs t (.cls p) i ↔
      (∃ c, t[i]? = some c ∧ p c = true) ∧ j = i + 1 ∧ sv = [] := by
  rcases ht : t[i]? with _ | c
  · simp [runs, ht]
  · by_cases hp : p c = true <;> simp [runs, ht, hp, Prod.ext_iff]

theorem runs_starCls_mem (t : List Char) (p : Char → Bool) (i j : Nat) (sv : List Nat) :
    (j, sv) ∈ runs t (.starCls p) i ↔
      sv = [] ∧ i ≤ j ∧ j ≤ i + runLen t p i := by
  simp only [runs, List.mem_map, List.mem_range]
  constructor
  · rintro ⟨d, hd, h2⟩
    obtain ⟨h3, h4⟩ := Prod.mk.injEq .. |>.mp h2
    exact ⟨h4.symm, by omega, by omega⟩
  · rintro ⟨rfl, h1, h2⟩
    refine ⟨i + runLen t p i - j, by omega, ?_⟩
    simp only [Prod.mk.injEq]
    exact ⟨by omega, trivial⟩

theorem runs_reFail (t : List Char) (i : Nat) : runs t reFail i = [] := by
  rcases ht : t[i]? with _ | c <;> simp [reFail, runs, ht]

theorem runs_alts_mem (t : List Char) :
    ∀ (l : List RE) (i j : Nat) (sv : List Nat),
    ((j, sv) ∈ runs t (alts l) i ↔ ∃ r ∈ l, (j, sv) ∈ runs t r i) := by
  intro l
  induction l with
  | nil => intro i j sv; simp [alts, runs_reFail]
  | cons r l' ih =>
    intro i j sv
    show (j, sv) ∈ runs t (.alt r (alts l')) i ↔ _
    simp only [runs, List.mem_append, ih, List.mem_cons]
    constructor
    · rintro (h | ⟨r', hr', h⟩)
      · exact ⟨r, Or.inl rfl, h⟩
      · exact ⟨r', Or.inr hr', h⟩
    · rintro ⟨r', (rfl | hr'), h⟩
      · exact Or.inl h
      · exact Or.inr ⟨r', hr', h⟩

theorem takeWhile_pred (p : Char → Bool) :
    ∀ (u : List Char) (d : Nat), d < (u.takeWhile p).length →
    ∃ c, u[d]? = some c ∧ p c = true := by
  intro u
  induction u with
  | nil => simp
  | cons a u' ih =>
    intro d hd
    rw [List.takeWhile_cons] at hd
    by_cases ha : p a = true
    · rw [if_pos ha] at hd
      cases d with
      | zero => exact ⟨a, by simp, ha⟩
      | succ d' =>
        obtain ⟨c, hc, hp⟩ := ih d' (by simpa using hd)
        exact ⟨c, by simpa using hc, hp⟩
    · rw [if_neg ha] at hd
      simp at hd

theorem runLen_chars (t : List Char) (p : Char → Bool) (i d : Nat)
    (h : d < runLen t p i) : ∃ c, t[i + d]? = some c ∧ p c = true := by
  obtain ⟨c, hc, hp⟩ := takeWhile_pred p (t.drop i) d h
  rw [List.getElem?_drop] at hc
  exact ⟨c, hc, hp⟩

theorem runs_chain_replicate_cls (t : List Char) (p : Char → Bool) :
    ∀ (n i j : Nat) (sv : List Nat),
    ((j, sv) ∈ runs t (chain (List.replicate n (.cls p))) i ↔
      j = i + n ∧ sv = [] ∧ ∀ d, d < n → ∃ c, t[i + d]? = some c ∧ p c = true) := by
  intro n
  induction n with
  | zero =>
    intro i j sv
    show (j, sv) ∈ runs t (chain []) i ↔ _
    simp [chain, runs_eps, Prod.ext_iff]
  | succ n ih =>
    intro i j sv
    show (j, sv) ∈ runs t (.seq (.cls p) (chain (List.replicate n (.cls p)))) i ↔ _
    rw [runs_seq_mem]
    constructor
    · rintro ⟨j1, s1, s2, h1, h2, rfl⟩
      rw [runs_cls_mem] at h1
      obtain ⟨⟨c, hc, hp⟩, rfl, rfl⟩ := h1
      rw [ih] at h2
      obtain ⟨rfl, rfl, hall⟩ := h2
      refine ⟨by omega, rfl, ?_⟩
      intro d hd
      cases d with
      | zero => exact ⟨c, by simpa using hc, hp⟩
      | succ d' =>
        obtain ⟨c', hc', hp'⟩ := hall d' (by omega)
        exact ⟨c', by rw [show i + (d' + 1) = i + 1 + d' from by omega]; exact hc', hp'⟩
    · rintro ⟨rfl, rfl, hall⟩
      obtain ⟨c, hc, hp⟩ := hall 0 (by omega)
      refine ⟨i + 1, [], [], ?_, ?_, rfl⟩
      · rw [runs_cls_mem]
        exact ⟨⟨c, by simpa using hc, hp⟩, rfl, rfl⟩
      · rw [ih]
        refine ⟨by omega, rfl, ?_⟩
        intro d hd
        obtain ⟨c', hc', hp'⟩ := hall (d + 1) (by omega)
        exact ⟨c', by rw [show i + 1 + d = i + (d + 1) from by omega]; exact hc', hp'⟩

theorem runs_strRE_mem (t : List Char) :
    ∀ (w : List Char) (i j : Nat) (sv : List Nat),
    ((j, sv) ∈ runs t (strRE w) i ↔
      j = i + w.length ∧ sv = [] ∧
        ∀ d, d < w.length → ∃ c, t[i + d]? = some c ∧ w[d]? = some c.toLower) := by
  intro w
  induction w with
  | nil =>
    intro i j sv
    show (j, sv) ∈ runs t (chain []) i ↔ _
    simp [chain, runs_eps, Prod.ext_iff]
  | cons ch w' ih =>
    intro i j sv
    show (j, sv) ∈ runs t (.seq (.cls (fun x => x.toLower = ch)) (strRE w')) i ↔ _
    rw [runs_seq_mem]
    constructor
    · rintro ⟨j1, s1, s2, h1, h2, rfl⟩
      rw [runs_cls_mem] at h1
      obtain ⟨⟨c, hc, hp⟩, rfl, rfl⟩ := h1
      rw [ih] at h2
      obtain ⟨rfl, rfl, hall⟩ := h2
      refine ⟨by simp; omega, rfl, ?_⟩
      intro d hd
      cases d with
      | zero =>
        refine ⟨c, by simpa using hc, ?_⟩
        simp only [List.getElem?_cons_zero, Option.some.injEq]
        exact (by simpa using hp : c.toLower = ch).symm
      | succ d' =>
        obtain ⟨c', hc', hp'⟩ := hall d' (by simpa using hd)
        exact ⟨c', by rw [show i + (d' + 1) = i + 1 + d' from by omega]; exact hc',
          by simpa using hp'⟩
    · rintro ⟨rfl, rfl, hall⟩
      obtain ⟨c, hc, hp⟩ := hall 0 (by simp)
      refine ⟨i + 1, [], [], ?_, ?_, rfl⟩
      · rw [runs_cls_mem]
        refine ⟨⟨c, by simpa using hc, ?_⟩, rfl, rfl⟩
        simp only [List.getElem?_cons_zero, Option.some.injEq] at hp
        simp [hp.symm]
      · rw [ih]
        refine ⟨by simp; omega, rfl, ?_⟩
        intro d hd
        obtain ⟨c', hc', hp'⟩ := hall (d + 1) (by simpa using hd)
        exact ⟨c', by rw [show i + 1 + d = i + (d + 1) from by omega]; exact hc',
          by simpa using hp'⟩

theorem headOpt_mem {α : Type} (l : List α) (a : α) (h : l.head? = some a) : a ∈ l := by
  cases l with
  | nil => simp at h
  | cons x xs =>
    simp only [List.head?_cons, Option.some.injEq] at h
    subst h
    exact List.mem_cons_self x xs

theorem findFromF_some_facts (t : List Char) (re : RE) :
    ∀ (fuel i s e : Nat) (sv : List Nat),
    findFromF t re fuel i = some (s, e, sv) →
    i ≤ s ∧ s ≤ t.length ∧ matchAt t re s = some (e, sv) := by
  intro fuel
  induction fuel with
  | zero => intro i s e sv h; simp [findFromF] at h
  | succ fuel ih =>
    intro i s e sv h
    rw [findFromF] at h
    split at h
    · rename_i hlen
      split at h
      · rename_i pr he
        rw [Option.some.injEq] at h
        obtain ⟨h4, h5⟩ := Prod.mk.injEq .. |>.mp h
        obtain ⟨h6, h7⟩ := Prod.mk.injEq .. |>.mp h5
        subst h4; subst h6; subst h7
        exact ⟨le_refl _, hlen, he⟩
      · obtain ⟨h1, h2, h3⟩ := ih (i + 1) s e sv h
        exact ⟨by omega, h2, h3⟩
    · simp at h

theorem findFromF_none_facts (t : List Char) (re : RE) :
    ∀ (fuel i : Nat), findFromF t re fuel i = none →
    ∀ j, i ≤ j → j < i + fuel → j ≤ t.length → matchAt t re j = none := by
  intro fuel
  induction fuel with
  | zero => intro i _ j _ h2 _; omega
  | succ fuel ih =>
    intro i h j hij hlt hjlen
    rw [findFromF] at h
    split at h
    · split at h
      · simp at h
      · rename_i hm
        rcases Nat.eq_or_lt_of_le hij with rfl | hstrict
        · exact hm
        · exact ih (i + 1) h j hstrict (by omega) hjlen
    · rename_i hlen
      omega

theorem reSearch_iff (re : RE) (t : List Char) :
    reSearch re t = true ↔
      ∃ s e sv, s ≤ t.length ∧ matchAt t re s = some (e, sv) := by
  constructor
  · intro h
    simp only [reSearch, Option.isSome_iff_exists] at h
    obtain ⟨⟨s, e, sv⟩, hf⟩ := h
    obtain ⟨_, h2, h3⟩ := findFromF_some_facts t re _ 0 s e sv hf
    exact ⟨s, e, sv, h2, h3⟩
  · rintro ⟨s, e, sv, hs, hm⟩
    cases hf : findFromF t re (t.length + 1) 0 with
    | some v => simp [reSearch, hf]
    | none =>
      have := findFromF_none_facts t re (t.length + 1) 0 hf s (by omega) (by omega) hs
      rw [hm] at this
      simp at this

theorem finditerF_facts (t : List Char) (re : RE) :
    ∀ (fuel i : Nat),
    (∀ m ∈ finditerF t re fuel i,
      i ≤ m.1 ∧ m.1 < m.2.1 ∧ (m.2.1, m.2.2) ∈ runs t re m.1) ∧
    (finditerF t re fuel i).Pairwise (fun m1 m2 => m1.2.1 ≤ m2.1) := by
  intro fuel
  induction fuel with
  | zero => intro i; simp [finditerF]
  | succ fuel ih =>
    intro i
    cases hf : findFromF t re (t.length + 1) i with
    | none => simp [finditerF, hf]
    | some v =>
      obtain ⟨s, e, sv⟩ := v
      obtain ⟨h1, h2, h3⟩ := findFromF_some_facts t re _ i s e sv hf
      have hmem : (e, sv) ∈ runs t re s := headOpt_mem _ _ h3
      by_cases hse : s < e
      · have heq : finditerF t re (fuel + 1) i = (s, e, sv) :: finditerF t re fuel e := by
          rw [finditerF, hf]
          show (if s < e then (s, e, sv) :: finditerF t re fuel e else []) = _
          rw [if_pos hse]
        rw [heq]
        constructor
        · intro m hm
          rcases List.mem_cons.mp hm with rfl | hm'
          · exact ⟨h1, hse, hmem⟩
          · obtain ⟨ha, hb, hc⟩ := (ih e).1 m hm'
            exact ⟨by omega, hb, hc⟩
        · refine List.Pairwise.cons ?_ (ih e).2
          intro m hm
          exact ((ih e).1 m hm).1
      · have heq : finditerF t re (fuel + 1) i = [] := by
          rw [finditerF, hf]
          show (if s < e then (s, e, sv) :: finditerF t re fuel e else []) = _
          rw [if_neg hse]
        rw [heq]
        simp

theorem runs_chain_cons (t : List Char) (r : RE) (l : List RE) (i j : Nat) (sv : List Nat) :
    (j, sv) ∈ runs t (chain (r :: l)) i ↔
      ∃ j1 s1 s2, (j1, s1) ∈ runs t r i ∧ (j, s2) ∈ runs t (chain l) j1 ∧ sv = s1 ++ s2 := by
  show (j, sv) ∈ runs t (.seq r (chain l)) i ↔ _
  exact runs_seq_mem t r (chain l) i j sv

theorem runs_chain_nil_mem (t : List Char) (i j : Nat) (sv : List Nat) :
    (j, sv) ∈ runs t (chain []) i ↔ j = i ∧ sv = [] := by
  show (j, sv) ∈ runs t eps i ↔ _
  simp [runs_eps, Prod.ext_iff]

theorem runs_chain_singleton (t : List Char) (r : RE) (i j : Nat) (sv : List Nat) :
    (j, sv) ∈ runs t (chain [r]) i ↔ (j, sv) ∈ runs t r i := by
  show (j, sv) ∈ runs t (.seq r eps) i ↔ _
  rw [runs_seq_mem]
  constructor
  · rintro ⟨j1, s1, s2, h1, h2, rfl⟩
    have h2' : j = j1 ∧ s2 = [] := by
      simpa [runs_eps, Prod.ext_iff] using h2
    obtain ⟨rfl, rfl⟩ := h2'
    simpa using h1
  · intro h
    exact ⟨j, sv, [], h, by simp [runs_eps], by simp⟩

theorem runs_cls_len (t : List Char) (p : Char → Bool) (i : Nat) :
    (runs t (.cls p) i).length ≤ 1 := by
  rcases ht : t[i]? with _ | c
  · simp [runs, ht]
  · by_cases hp : p c = true <;> simp [runs, ht, hp]

theorem runs_look_len (t : List Char) (f : Option Char → Option Char → Bool) (i : Nat) :
    (runs t (.look f) i).length ≤ 1 := by
  by_cases hf : f (prevChar t i) t[i]? = true <;> simp [runs, hf]

theorem runs_det_chain (t : List Char) :
    ∀ (l : List RE), (∀ r ∈ l, ∀ i, (runs t r i).length ≤ 1) →
    ∀ i, (runs t (chain l) i).length ≤ 1 := by
  intro l
  induction l with
  | nil => intro _ i; simp [chain, runs_eps]
  | cons r l' ih =>
    intro h i
    show (runs t (.seq r (chain l')) i).length ≤ 1
    simp only [runs]
    cases hr : runs t r i with
    | nil => simp
    | cons x xs =>
      have hlen := h r (by simp) i
      rw [hr] at hlen
      have hxs : xs = [] := by
        cases xs with
        | nil => rfl
        | cons y ys => simp at hlen
      subst hxs
      simp only [List.flatMap_cons, List.flatMap_nil, List.append_nil,
        List.length_map]
      exact ih (fun r' hr' i' => h r' (by simp [hr']) i') x.1

theorem matchAt_iff_det (t : List Char) (re : RE) (i : Nat)
    (hdet : ∀ i', (runs t re i').length ≤ 1) (v : Nat × List Nat) :
    matchAt t re i = some v ↔ v ∈ runs t re i := by
  unfold matchAt
  cases hr : runs t re i with
  | nil => simp
  | cons x xs =>
    have hl := hdet i
    rw [hr] at hl
    have hxs : xs = [] := by
      cases xs with
      | nil => rfl
      | cons y ys => simp at hl
    subst hxs
    simp [eq_comm]

theorem notDigit_opt_iff (o : Option Char) :
    ((!((o.map isDigitC).getD false)) = true) ↔ ∀ c, o = some c → isDigitC c = false := by
  cases o <;> simp

theorem bare_runs_det (u : List Char) : ∀ i, (runs u SSN_BARE_RE i).length ≤ 1 := by
  intro i
  refine runs_det_chain u _ ?_ i
  intro r hr
  simp only [SSN_BARE_RE, List.mem_append, List.mem_singleton, List.mem_replicate] at hr
  rcases hr with (h | ⟨_, h⟩) | h
  · subst h; exact fun i' => runs_look_len u _ i'
  · subst h; exact fun i' => runs_cls_len u _ i'
  · subst h; exact fun i' => runs_look_len u _ i'

theorem bare_matchAt_iff (u : List Char) (i j : Nat) (sv : List Nat) :
    matchAt u SSN_BARE_RE i = some (j, sv) ↔
      j = i + 9 ∧ sv = [] ∧ nineDigitRunAt u i := by
  rw [matchAt_iff_det u SSN_BARE_RE i (bare_runs_det u)]
  show (j, sv) ∈ runs u (chain
    ([.look (fun l _ => !((l.map isDigitC).getD false))] ++
      (List.replicate 9 (.cls isDigitC) ++
        [.look (fun _ r => !((r.map isDigitC).getD false))]))) i ↔ _
  rw [runs_chain_append]
  constructor
  · rintro ⟨j1, s1, s2, h1, h2, rfl⟩
    rw [runs_chain_singleton, runs_look_mem] at h1
    obtain ⟨hpre, rfl, rfl⟩ := h1
    rw [runs_chain_append] at h2
    obtain ⟨j2, s3, s4, h3, h4, rfl⟩ := h2
    rw [runs_chain_replicate_cls] at h3
    obtain ⟨rfl, rfl, hdig⟩ := h3
    rw [runs_chain_singleton, runs_look_mem] at h4
    obtain ⟨hpost, rfl, rfl⟩ := h4
    refine ⟨rfl, rfl, ?_, hdig, ?_⟩
    · exact (notDigit_opt_iff _).mp hpre
    · intro c hc
      have := (notDigit_opt_iff _).mp hpost c
      exact this hc
  · rintro ⟨rfl, rfl, hpre, hdig, hpost⟩
    refine ⟨i, [], [], ?_, ?_, rfl⟩
    · rw [runs_chain_singleton, runs_look_mem]
      exact ⟨(notDigit_opt_iff _).mpr hpre, rfl, rfl⟩
    · rw [runs_chain_append]
      refine ⟨i + 9, [], [], ?_, ?_, rfl⟩
      · rw [runs_chain_replicate_cls]
        exact ⟨rfl, rfl, hdig⟩
      · rw [runs_chain_singleton, runs_look_mem]
        exact ⟨(notDigit_opt_iff _).mpr hpost, rfl, rfl⟩

theorem token_runs_det (u : List Char) : ∀ i, (runs u SSN_WORD_RE i).length ≤ 1 := by
  intro i
  refine runs_det_chain u _ ?_ i
  intro r hr
  simp only [SSN_WORD_RE, bound, List.mem_cons, List.not_mem_nil, or_false] at hr
  rcases hr with h | h | h | h | h <;> subst h
  · exact fun i' => runs_look_len u _ i'
  · exact fun i' => runs_cls_len u _ i'
  · exact fun i' => runs_cls_len u _ i'
  · exact fun i' => runs_cls_len u _ i'
  · exact fun i' => runs_look_len u _ i'

theorem token_matchAt_iff (u : List Char) (i j : Nat) (sv : List Nat) :
    matchAt u SSN_WORD_RE i = some (j, sv) ↔ j = i + 3 ∧ sv = [] ∧ ssnTokenAt u i := by
  rw [matchAt_iff_det u _ i (token_runs_det u)]
  show (j, sv) ∈ runs u (chain [bound, .cls (fun c => c.toLower = 's'),
    .cls (fun c => c.toLower = 's'), .cls (fun c => c.toLower = 'n'), bound]) i ↔ _
  simp only [bound, runs_chain_cons, runs_chain_nil_mem, runs_look_mem, runs_cls_mem]
  constructor
  · rintro ⟨j1, s1, s2, h1, h2, hsv⟩
    obtain ⟨hb1, hj1, hs1⟩ := h1
    obtain ⟨j2, s3, s4, h3, h4, hs2⟩ := h2
    obtain ⟨⟨c1, hc1, hp1⟩, hj2, hs3⟩ := h3
    obtain ⟨j3, s5, s6, h5, h6, hs4⟩ := h4
    obtain ⟨⟨c2, hc2, hp2⟩, hj3, hs5⟩ := h5
    obtain ⟨j4, s7, s8, h7, h8, hs6⟩ := h6
    obtain ⟨⟨c3, hc3, hp3⟩, hj4, hs7⟩ := h7
    obtain ⟨j5, s9, s10, h9, h10, hs8⟩ := h8
    obtain ⟨hb2, hj5, hs9⟩ := h9
    obtain ⟨hj, hs10⟩ := h10
    rw [hj1] at hc1 hj2
    rw [hj2] at hc2 hj3
    rw [hj3] at hc3 hj4
    rw [hj4] at hb2 hj5
    refine ⟨by omega, ?_, hb1, ⟨c1, hc1, by simpa using hp1⟩,
      ⟨c2, by simpa using hc2, by simpa using hp2⟩,
      ⟨c3, by simpa using hc3, by simpa using hp3⟩, ?_⟩
    · simp [hsv, hs1, hs2, hs3, hs4, hs5, hs6, hs7, hs8, hs9, hs10]
    · have h3 : i + 1 + 1 + 1 = i + 3 := by omega
      rw [← h3]
      exact hb2
  · rintro ⟨rfl, rfl, hb1, ⟨c1, hc1, hp1⟩, ⟨c2, hc2, hp2⟩, ⟨c3, hc3, hp3⟩, hb2⟩
    refine ⟨i, [], [], ⟨hb1, rfl, rfl⟩, ?_, by simp⟩
    refine ⟨i + 1, [], [], ⟨⟨c1, hc1, by simpa using hp1⟩, rfl, rfl⟩, ?_, by simp⟩
    refine ⟨i + 1 + 1, [], [], ⟨⟨c2, by simpa using hc2, by simpa using hp2⟩, rfl, rfl⟩,
      ?_, by simp⟩
    refine ⟨i + 1 + 1 + 1, [], [], ⟨⟨c3, by simpa using hc3, by simpa using hp3⟩, rfl, rfl⟩,
      ?_, by simp⟩
    refine ⟨i + 1 + 1 + 1, [], [], ⟨?_, rfl, rfl⟩, ?_, by simp⟩
    · have : i + 1 + 1 + 1 = i + 3 := by omega
      rw [this]
      exact hb2
    · exact ⟨by omega, rfl⟩

/-- C2: the bare nine-digit substitution is gated on the case-insensitive
word-bounded token SSN, but the gate inspects the text AFTER the email,
formatted-SSN and phone substitutions, not the raw line. With respect to that
post-substitution text the behaviour the spec states holds: when the token
search fails the text and the SSN count are unchanged by the bare stage, when
it succeeds the bare substitution runs and its count is added to SSN. The
token search succeeds exactly when some position carries a word-bounded SSN
token, and the bare pattern matches at a position exactly when nine digits not
adjacent to further digits start there. -/
theorem c2_bare_ssn_scoping (t : List Char) :
    (mask_regex t false).1 =
      (if reSearch SSN_WORD_RE (rxPhone t).1 then
        (pySubn SSN_BARE_RE "[SSN_REDACTED]".toList (rxPhone t).1).1
      else (rxPhone t).1) ∧
    (mask_regex t false).2 "SSN" =
      (rxSsnF t).2 +
      (if reSearch SSN_WORD_RE (rxPhone t).1 then
        (pySubn SSN_BARE_RE "[SSN_REDACTED]".toList (rxPhone t).1).2
      else 0) ∧
    (reSearch SSN_WORD_RE (rxPhone t).1 = true ↔
      ∃ s, s ≤ (rxPhone t).1.length ∧ ssnTokenAt (rxPhone t).1 s) ∧
    (∀ u i j sv, matchAt u SSN_BARE_RE i = some (j, sv) ↔
      j = i + 9 ∧ sv = [] ∧ nineDigitRunAt u i) := by
  refine ⟨?_, ?_, ?_, fun u i j sv => bare_matchAt_iff u i j sv⟩
  · show (if reSearch SSN_WORD_RE (rxPhone t).1 then
        pySubn SSN_BARE_RE "[SSN_REDACTED]".toList (rxPhone t).1
      else ((rxPhone t).1, 0)).1 = _
    cases reSearch SSN_WORD_RE (rxPhone t).1 <;> rfl
  · show (if ("SSN" : String) = "EMAIL" then (rxEmail t).2
      else if ("SSN" : String) = "SSN" then
        (rxSsnF t).2 +
          (if reSearch SSN_WORD_RE (rxPhone t).1 then
            pySubn SSN_BARE_RE "[SSN_REDACTED]".toList (rxPhone t).1
          else ((rxPhone t).1, 0)).2
      else if ("SSN" : String) = "PHONE" then (rxPhone t).2
      else if ("SSN" : String) = "ZIP" then 0
      else 0) = _
    cases reSearch SSN_WORD_RE (rxPhone t).1 <;> rfl
  · rw [reSearch_iff]
    constructor
    · rintro ⟨s, e, sv, hs, hm⟩
      rw [token_matchAt_iff] at hm
      exact ⟨s, hs, hm.2.2⟩
    · rintro ⟨s, hs, htok⟩
      exact ⟨s, s + 3, [], hs, (token_matchAt_iff _ _ _ _).2 ⟨rfl, rfl, htok⟩⟩

/-- The line "SSN3125550199 x 987654321" carries no word-bounded SSN token (the
token is glued to a digit), yet the phone substitution creates one, so the
bare nine-digit number 987654321 IS masked and counted: the raw-line reading
of the scoping claim is false. -/
theorem c2_bare_ssn_counterexample :
    reSearch SSN_WORD_RE "SSN3125550199 x 987654321".toList = false ∧
    (mask_regex "SSN3125550199 x 987654321".toList false).1 =
      "SSN[PHONE_REDACTED] x [SSN_REDACTED]".toList ∧
    (mask_regex "SSN3125550199 x 987654321".toList false).2 "SSN" = 1 := by
  refine ⟨by decide, by decide, by decide⟩

theorem sliceN_getElem (t : List Char) (a b d : Nat) :
    (sliceN t a b)[d]? = if a + d < b then t[a + d]? else none := by
  rw [sliceN, List.getElem?_drop, List.getElem?_take]

theorem slice_lower_of_pointwise (t w : List Char) (i : Nat)
    (h : ∀ d, d < w.length → ∃ c, t[i + d]? = some c ∧ w[d]? = some c.toLower) :
    (sliceN t i (i + w.length)).map Char.toLower = w := by
  refine List.ext_getElem?_iff.mpr ?_
  intro d
  rw [List.getElem?_map, sliceN_getElem]
  by_cases hd : d < w.length
  · obtain ⟨c, hc, hw⟩ := h d hd
    rw [if_pos (by omega), hc, hw]
    rfl
  · rw [if_neg (by omega), List.getElem?_eq_none (by omega)]
    rfl

theorem runs_plusCls_mem (t : List Char) (p : Char → Bool) (i j : Nat) (sv : List Nat)
    (h : (j, sv) ∈ runs t (plusCls p) i) :
    sv = [] ∧ i < j ∧ ∀ x, i ≤ x → x < j → ∃ c, t[x]? = some c ∧ p c = true := by
  rw [plusCls, runs_seq_mem] at h
  obtain ⟨j1, s1, s2, h1, h2, rfl⟩ := h
  rw [runs_cls_mem] at h1
  obtain ⟨⟨c, hc, hp⟩, rfl, rfl⟩ := h1
  rw [runs_starCls_mem] at h2
  obtain ⟨rfl, hle, hrl⟩ := h2
  refine ⟨rfl, by omega, ?_⟩
  intro x hx1 hx2
  rcases Nat.eq_or_lt_of_le hx1 with rfl | hgt
  · exact ⟨c, hc, hp⟩
  · obtain ⟨c', hc', hp'⟩ := runLen_chars t p (i + 1) (x - (i + 1)) (by omega)
    rw [show i + 1 + (x - (i + 1)) = x from by omega] at hc'
    exact ⟨c', hc', hp'⟩

theorem runs_nameWord_mem (t : List Char) (i j : Nat) (sv : List Nat)
    (h : (j, sv) ∈ runs t nameWordRE i) :
    sv = [] ∧ i + 2 ≤ j ∧ lettersAt t i j := by
  rw [nameWordRE, runs_seq_mem] at h
  obtain ⟨j1, s1, s2, h1, h2, rfl⟩ := h
  rw [runs_cls_mem] at h1
  obtain ⟨⟨c, hc, hp⟩, rfl, rfl⟩ := h1
  obtain ⟨rfl, hlt, hall⟩ := runs_plusCls_mem t alphaC (i + 1) j s2 h2
  refine ⟨rfl, by omega, ?_⟩
  intro x hx1 hx2
  rcases Nat.eq_or_lt_of_le hx1 with rfl | hgt
  · exact ⟨c, hc, hp⟩
  · exact hall x (by omega) hx2

theorem runs_opt_mem (t : List Char) (a : RE) (i j : Nat) (sv : List Nat) :
    (j, sv) ∈ runs t (.opt a) i ↔ (j, sv) ∈ runs t a i ∨ (j = i ∧ sv = []) := by
  simp [runs, Prod.ext_iff]

theorem getElem_some_lt (t : List Char) (n : Nat) (c : Char) (h : t[n]? = some c) :
    n < t.length := by
  by_contra hn
  rw [List.getElem?_eq_none (by omega)] at h
  exact Option.noConfusion h

theorem title_run_shape (t : List Char) (s0 j : Nat) (sv : List Nat)
    (h : (j, sv) ∈ runs t TITLE_NAME_RE s0) :
    ∃ p q, sv = [p, q] ∧ s0 < p ∧ p + 2 ≤ q ∧ j = q ∧ q ≤ t.length ∧
      specTitleNameAt t p q := by
  simp only [TITLE_NAME_RE, bound, runs_chain_cons, runs_chain_nil_mem, runs_look_mem,
    runs_save_mem] at h
  obtain ⟨j1, s1, s2, ⟨hb0, hj1, hs1⟩, h, hsv⟩ := h
  obtain ⟨j2, s3, s4, hT, h, hs2⟩ := h
  obtain ⟨j3, s5, s6, hW, h, hs4⟩ := h
  obtain ⟨j4, s7, s8, ⟨hj4, hs7⟩, h, hs6⟩ := h
  obtain ⟨j5, s9, s10, hN, h, hs8⟩ := h
  obtain ⟨j6, s11, s12, hO, h, hs10⟩ := h
  obtain ⟨j7, s13, s14, ⟨hj7, hs13⟩, h, hs12⟩ := h
  obtain ⟨j8, s15, s16, ⟨hb1, hj8, hs15⟩, ⟨hj, hs16⟩, hs14⟩ := h
  rw [hj1] at hT
  rw [runs_alts_mem] at hT
  obtain ⟨r, hrmem, hT⟩ := hT
  rw [List.mem_map] at hrmem
  obtain ⟨w, hw, rfl⟩ := hrmem
  rw [runs_strRE_mem] at hT
  obtain ⟨hj2, hs3, hpw⟩ := hT
  obtain ⟨hs5, hlt1, hws1⟩ := runs_plusCls_mem t pws j2 j3 s5 hW
  rw [hj4] at hN
  obtain ⟨hs9, hge1, hlet1⟩ := runs_nameWord_mem t j3 j5 s9 hN
  rw [runs_opt_mem] at hO
  have hopt : s11 = [] ∧ j5 ≤ j6 ∧
      (j6 = j5 ∨ ∃ m2, j5 < m2 ∧ wsAt t j5 m2 ∧ m2 + 2 ≤ j6 ∧ lettersAt t m2 j6) := by
    rcases hO with hO | ⟨hj6, hs11⟩
    · simp only [runs_chain_cons, runs_chain_nil_mem] at hO
      obtain ⟨y, a1, a2, hWS, ⟨z, a3, a4, hNW, ⟨hj6z, ha4⟩, ha2⟩, ha1s⟩ := hO
      obtain ⟨ha1, hlt2, hws2⟩ := runs_plusCls_mem t pws j5 y a1 hWS
      obtain ⟨ha3, hge2, hlet2⟩ := runs_nameWord_mem t y z a3 hNW
      refine ⟨by simp [ha1s, ha1, ha2, ha4, ha3], by omega,
        Or.inr ⟨y, hlt2, hws2, by omega, hj6z ▸ hlet2⟩⟩
    · exact ⟨hs11, by omega, Or.inl hj6⟩
  obtain ⟨hs11, hj56, hshape⟩ := hopt
  have hqlen : j6 ≤ t.length := by
    rcases hshape with hj6 | ⟨m2, _, _, hm2q, hlet2⟩
    · obtain ⟨c, hc, _⟩ := hlet1 (j5 - 1) (by omega) (by omega)
      have := getElem_some_lt t (j5 - 1) c hc
      omega
    · obtain ⟨c, hc, _⟩ := hlet2 (j6 - 1) (by omega) (by omega)
      have := getElem_some_lt t (j6 - 1) c hc
      omega
  refine ⟨j3, j6, ?_, by omega, by omega, by omega, hqlen, ?_⟩
  · simp [hsv, hs1, hs2, hs3, hs4, hs5, hs6, hs7, hs8, hs9, hs10, hs11, hs12, hs13,
      hs14, hs15, hs16]
  · refine ⟨s0, s0 + w.length, hb0, ?_, by omega, ?_, ?_, ?_⟩
    · rw [slice_lower_of_pointwise t w s0 hpw]
      exact hw
    · intro x hx1 hx2
      exact hws1 x (by omega) hx2
    · rcases hshape with hj6 | ⟨m2, hlt2, hws2, hm2q, hlet2⟩
      · exact Or.inl ⟨by omega, by rw [hj6]; exact hlet1⟩
      · exact Or.inr ⟨j5, m2, by omega, hlet1, hlt2, hws2, hm2q, hlet2⟩
    · rw [hj7] at hb1
      exact hb1

theorem overlapsPER_false_iff (p q : Nat) :
    ∀ ents : List Ent, (overlapsPER p q ents = some false ↔
      ∀ e ∈ ents, e.group = "PER" →
        ∃ s en, e.start.asQ = some s ∧ e.stop.asQ = some en ∧
          ((q : ℚ) ≤ s ∨ en ≤ (p : ℚ))) := by
  intro ents
  induction ents with
  | nil => simp [overlapsPER]
  | cons e rest ih =>
    by_cases hg : e.group = "PER"
    · have hgb : (e.group == "PER") = true := by simp [hg]
      cases hs : e.start.asQ with
      | none =>
        rw [overlapsPER, if_pos hgb, hs]
        constructor
        · intro h
          exact Option.noConfusion h
        · intro h
          obtain ⟨s, en, hs', _, _⟩ := h e (List.mem_cons_self e rest) hg
          rw [hs] at hs'
          exact Option.noConfusion hs'
      | some s =>
        cases hen : e.stop.asQ with
        | none =>
          rw [overlapsPER, if_pos hgb, hs, hen]
          show Option.bind (some s) _ = some false ↔ _
          rw [Option.some_bind]
          constructor
          · intro h
            exact Option.noConfusion h
          · intro h
            obtain ⟨s', en, _, hen', _⟩ := h e (List.mem_cons_self e rest) hg
            rw [hen] at hen'
            exact Option.noConfusion hen'
        | some en =>
          rw [overlapsPER, if_pos hgb, hs, hen]
          show Option.bind (some s) (fun s => Option.bind (some en) _) = some false ↔ _
          rw [Option.some_bind, Option.some_bind]
          rcases Decidable.em ((q : ℚ) ≤ s ∨ (p : ℚ) ≥ en) with hov | hov
          · rw [if_neg (not_not_intro hov), ih]
            constructor
            · intro h e' he' hg'
              rcases List.mem_cons.mp he' with rfl | hmem
              · refine ⟨s, en, hs, hen, ?_⟩
                rcases hov with h' | h'
                exacts [Or.inl h', Or.inr h']
              · exact h e' hmem hg'
            · intro h e' he' hg'
              exact h e' (List.mem_cons_of_mem e he') hg'
          · rw [if_pos hov]
            constructor
            · intro h
              simp at h
            · intro h
              obtain ⟨s', en', hs', hen', hcond⟩ := h e (List.mem_cons_self e rest) hg
              rw [hs] at hs'
              rw [hen] at hen'
              obtain rfl : s = s' := Option.some.inj hs'
              obtain rfl : en = en' := Option.some.inj hen'
              refine absurd ?_ hov
              rcases hcond with h' | h'
              exacts [Or.inl h', Or.inr h']
    · have hgb : (e.group == "PER") = false := by simp [hg]
      rw [overlapsPER, if_neg (by rw [hgb]; exact Bool.false_ne_true), ih]
      constructor
      · intro h e' he' hg'
        rcases List.mem_cons.mp he' with rfl | hmem
        · exact absurd hg' hg
        · exact h e' hmem hg'
      · intro h e' he' hg'
        exact h e' (List.mem_cons_of_mem e he') hg'

theorem addTitleEnts_mem (text : List Char) (ents : List Ent) :
    ∀ (ms : List (Nat × Nat × List Nat)) (adds : List Ent),
    addTitleEnts text ents ms = some adds →
    (∀ m ∈ ms, (m.2.1, m.2.2) ∈ runs text TITLE_NAME_RE m.1) →
    ∀ e ∈ adds, ∃ p q : Nat,
      e = { group := "PER", start := .int (p : ℤ), stop := .int (q : ℤ),
            word := pySlice text (p : ℤ) (q : ℤ), score := .float (mkRat 95 100) } ∧
      p + 2 ≤ q ∧ q ≤ text.length ∧ specTitleNameAt text p q ∧
      overlapsPER p q ents = some false := by
  intro ms
  induction ms with
  | nil =>
    intro adds h _
    rw [addTitleEnts] at h
    obtain rfl : [] = adds := Option.some.inj h
    intro e he
    exact absurd he (List.not_mem_nil e)
  | cons m ms ih =>
    intro adds h hruns
    obtain ⟨st, en, sv⟩ := m
    obtain ⟨p, q, hsv, _, hpq, _, hqlen, hspec⟩ :=
      title_run_shape text st en sv (hruns (st, en, sv) (List.mem_cons_self _ _))
    subst hsv
    rw [addTitleEnts] at h
    cases hov : overlapsPER p q ents with
    | none =>
      rw [hov] at h
      exact absurd h (by simp)
    | some ad =>
      rw [hov] at h
      cases hrest : addTitleEnts text ents ms with
      | none =>
        rw [hrest] at h
        exact absurd h (by simp)
      | some rest =>
        rw [hrest] at h
        have hres := ih rest hrest (fun m hm => hruns m (List.mem_cons_of_mem _ hm))
        cases ad with
        | true =>
          have h' : some rest = some adds := h
          obtain rfl : rest = adds := Option.some.inj h'
          exact hres
        | false =>
          have h' : some (({ group := "PER", start := .int (p : ℤ), stop := .int (q : ℤ), word := pySlice text (p : ℤ) (q : ℤ), score := .float (mkRat 95 100) } : Ent) :: rest) = some adds := h
          obtain rfl := Option.some.inj h'
          intro e he
          rcases List.mem_cons.mp he with rfl | hmem
          · exact ⟨p, q, rfl, hpq, hqlen, hspec, hov⟩
          · exact hres e hmem

/-- C4: every span the title-name detector adds is a PERSON span with
confidence exactly 0.95 covering only the name portion after a vocabulary
title, and it is added only when its range overlaps no PERSON span of the
supplied list; but because the pattern is compiled with re.IGNORECASE the
name words are one or two runs of two or more letters of EITHER case, not
capitalized words. -/
theorem c4_title_name_detector (t : List Char) (ents E : List Ent)
    (hdet : detect_titles_and_names t ents = some E) :
    ∃ adds, E = ents ++ adds ∧
      ∀ e ∈ adds, ∃ p q : Nat,
        e.group = "PER" ∧ e.score = .float (mkRat 95 100) ∧
        e.start = .int (p : ℤ) ∧ e.stop = .int (q : ℤ) ∧ p < q ∧
        e.word = pySlice t (p : ℤ) (q : ℤ) ∧ q ≤ t.length ∧
        specTitleNameAt t p q ∧
        ∀ per ∈ ents, per.group = "PER" →
          ∃ s en, per.start.asQ = some s ∧ per.stop.asQ = some en ∧
            ((q : ℚ) ≤ s ∨ en ≤ (p : ℚ)) := by
  rw [detect_titles_and_names] at hdet
  cases hadd : addTitleEnts t ents (finditer TITLE_NAME_RE t) with
  | none =>
    rw [hadd] at hdet
    exact absurd hdet (by simp)
  | some adds =>
    rw [hadd] at hdet
    have hE : some (ents ++ adds) = some E := hdet
    obtain rfl := Option.some.inj hE
    have hmem := addTitleEnts_mem t ents (finditer TITLE_NAME_RE t) adds hadd
      (fun m hm => ((finditerF_facts t TITLE_NAME_RE (t.length + 1) 0).1 m hm).2.2)
    refine ⟨adds, rfl, fun e he => ?_⟩
    obtain ⟨p, q, heq, hpq, hqlen, hspec, hov⟩ := hmem e he
    subst heq
    exact ⟨p, q, rfl, rfl, rfl, rfl, by omega, rfl, hqlen, hspec,
      (overlapsPER_false_iff p q ents).mp hov⟩

theorem c4_title_name_detector_witness :
    ∃ adds,
      [({ group := "PER", start := .int 3, stop := .int 5, word := ['a', 'l'], score := .float (mkRat 95 100) } : Ent)] = ([] : List Ent) ++ adds ∧
      ∀ e ∈ adds, ∃ p q : Nat,
        e.group = "PER" ∧ e.score = .float (mkRat 95 100) ∧
        e.start = .int (p : ℤ) ∧ e.stop = .int (q : ℤ) ∧ p < q ∧
        e.word = pySlice "dr al".toList (p : ℤ) (q : ℤ) ∧ q ≤ "dr al".toList.length ∧
        specTitleNameAt "dr al".toList p q ∧
        ∀ per ∈ ([] : List Ent), per.group = "PER" →
          ∃ s en, per.start.asQ = some s ∧ per.stop.asQ = some en ∧
            ((q : ℚ) ≤ s ∨ en ≤ (p : ℚ)) :=
  c4_title_name_detector "dr al".toList []
    [({ group := "PER", start := .int 3, stop := .int 5, word := ['a', 'l'], score := .float (mkRat 95 100) } : Ent)]
    (by decide)

/-- On the line "dr al" the detector adds the PERSON span [3, 5) for the
entirely lowercase word "al": the claim that name words are capitalized is
false (the pattern is compiled with re.IGNORECASE). -/
theorem c4_title_name_counterexample :
    detect_titles_and_names "dr al".toList [] =
      some [({ group := "PER", start := .int 3, stop := .int 5, word := ['a', 'l'], score := .float (mkRat 95 100) } : Ent)] ∧
    "dr al".toList[3]? = some 'a' ∧ 'a'.isUpper = false :=
  ⟨by decide, by decide, by decide⟩

theorem addTitleEnts_spans (text : List Char) (ents : List Ent) :
    ∀ (ms : List (Nat × Nat × List Nat)) (adds : List Ent),
    addTitleEnts text ents ms = some adds →
    (∀ m ∈ ms, (m.2.1, m.2.2) ∈ runs text TITLE_NAME_RE m.1) →
    ms.Pairwise (fun m1 m2 => m1.2.1 ≤ m2.1) →
    (∀ e ∈ adds, ∃ m ∈ ms, ∃ p q : Nat,
        spanQ e = ((p : ℚ), (q : ℚ)) ∧ m.1 < p ∧ p < q ∧ q = m.2.1 ∧ m.2.2 = [p, q]) ∧
    adds.Pairwise noOvl := by
  intro ms
  induction ms with
  | nil =>
    intro adds h _ _
    rw [addTitleEnts] at h
    obtain rfl : [] = adds := Option.some.inj h
    simp
  | cons m ms ih =>
    intro adds h hruns hpw
    obtain ⟨st, en, sv⟩ := m
    obtain ⟨p, q, hsv, hstp, hpq2, hjq, _, _⟩ :=
      title_run_shape text st en sv (hruns (st, en, sv) (List.mem_cons_self _ _))
    subst hsv
    rw [List.pairwise_cons] at hpw
    obtain ⟨hhead, htail⟩ := hpw
    rw [addTitleEnts] at h
    cases hov : overlapsPER p q ents with
    | none =>
      rw [hov] at h
      exact absurd h (by simp)
    | some ad =>
      rw [hov] at h
      cases hrest : addTitleEnts text ents ms with
      | none =>
        rw [hrest] at h
        exact absurd h (by simp)
      | some rest =>
        rw [hrest] at h
        obtain ⟨ihmem, ihpw⟩ := ih rest hrest
          (fun m hm => hruns m (List.mem_cons_of_mem _ hm)) htail
        cases ad with
        | true =>
          have h' : some rest = some adds := h
          obtain rfl := Option.some.inj h'
          refine ⟨fun e he => ?_, ihpw⟩
          obtain ⟨m', hm', hrest'⟩ := ihmem e he
          exact ⟨m', List.mem_cons_of_mem _ hm', hrest'⟩
        | false =>
          have h' : some (({ group := "PER", start := .int (p : ℤ), stop := .int (q : ℤ), word := pySlice text (p : ℤ) (q : ℤ), score := .float (mkRat 95 100) } : Ent) :: rest) = some adds := h
          obtain rfl := Option.some.inj h'
          have hspanNew : spanQ ({ group := "PER", start := .int (p : ℤ), stop := .int (q : ℤ), word := pySlice text (p : ℤ) (q : ℤ), score := .float (mkRat 95 100) } : Ent) = ((p : ℚ), (q : ℚ)) := by
            simp [spanQ, PyNum.asQ]
          constructor
          · intro e he
            rcases List.mem_cons.mp he with rfl | hmem
            · exact ⟨(st, en, [p, q]), List.mem_cons_self _ _, p, q, hspanNew,
                hstp, by omega, hjq.symm, rfl⟩
            · obtain ⟨m', hm', hrest'⟩ := ihmem e hmem
              exact ⟨m', List.mem_cons_of_mem _ hm', hrest'⟩
          · rw [List.pairwise_cons]
            refine ⟨fun e' he' => ?_, ihpw⟩
            obtain ⟨m', hm', p', q', hspan', hlt', _, _, _⟩ := ihmem e' he'
            have hle : en ≤ m'.1 := hhead m' hm'
            rw [noOvl, hspanNew, hspan']
            left
            show (q : ℚ) ≤ (p' : ℚ)
            have : q ≤ p' := by omega
            exact_mod_cast this

/-- C6: if the supplied entity list has pairwise non-overlapping PERSON
spans, then the merged list produced by the title-name detector still has
pairwise non-overlapping PERSON spans: every added span avoids the supplied
PERSON spans (the overlap check), and distinct added spans come from
disjoint pattern matches. -/
theorem c6_no_overlapping_person (t : List Char) (ents E : List Ent)
    (hdet : detect_titles_and_names t ents = some E)
    (hpair : (ents.filter (fun e => e.group == "PER")).Pairwise noOvl) :
    (E.filter (fun e => e.group == "PER")).Pairwise noOvl := by
  rw [detect_titles_and_names] at hdet
  cases hadd : addTitleEnts t ents (finditer TITLE_NAME_RE t) with
  | none =>
    rw [hadd] at hdet
    exact absurd hdet (by simp)
  | some adds =>
    rw [hadd] at hdet
    have hE : some (ents ++ adds) = some E := hdet
    obtain rfl := Option.some.inj hE
    have facts := finditerF_facts t TITLE_NAME_RE (t.length + 1) 0
    have hruns : ∀ m ∈ finditer TITLE_NAME_RE t,
        (m.2.1, m.2.2) ∈ runs t TITLE_NAME_RE m.1 :=
      fun m hm => (facts.1 m hm).2.2
    obtain ⟨hspans, haddpw⟩ :=
      addTitleEnts_spans t ents (finditer TITLE_NAME_RE t) adds hadd hruns facts.2
    have hmem := addTitleEnts_mem t ents (finditer TITLE_NAME_RE t) adds hadd hruns
    rw [List.filter_append, List.pairwise_append]
    refine ⟨hpair, List.Pairwise.sublist (List.filter_sublist _) haddpw, ?_⟩
    intro a ha b hb
    rw [List.mem_filter] at ha hb
    obtain ⟨hamem, hag⟩ := ha
    obtain ⟨hbmem, _⟩ := hb
    obtain ⟨p, q, hbeq, _, _, _, hov⟩ := hmem b hbmem
    have hag' : a.group = "PER" := by simpa using hag
    obtain ⟨s, en, hs, hen, hcond⟩ := (overlapsPER_false_iff p q ents).mp hov a hamem hag'
    have hspanb : spanQ b = ((p : ℚ), (q : ℚ)) := by
      rw [hbeq]
      simp [spanQ, PyNum.asQ]
    rw [noOvl, hspanb]
    rw [spanQ, hs, hen]
    rcases hcond with h' | h'
    · exact Or.inr h'
    · exact Or.inl h'

theorem c6_no_overlapping_person_witness :
    (([({ group := "PER", start := .int 0, stop := .int 1, word := ['d'], score := .int 1 } : Ent), ({ group := "PER", start := .int 3, stop := .int 5, word := ['a', 'l'], score := .float (mkRat 95 100) } : Ent)]).filter (fun e => e.group == "PER")).Pairwise noOvl :=
  c6_no_overlapping_person "dr al".toList
    [({ group := "PER", start := .int 0, stop := .int 1, word := ['d'], score := .int 1 } : Ent)]
    [({ group := "PER", start := .int 0, stop := .int 1, word := ['d'], score := .int 1 } : Ent), ({ group := "PER", start := .int 3, stop := .int 5, word := ['a', 'l'], score := .float (mkRat 95 100) } : Ent)]
    (by decide) (by simp)

/-- C3 (amended): the entities field of the per-line report record is the
confidence-filtered list formed BEFORE the street policy filter runs; a span
suppressed by the street policy can therefore still appear in the emitted
record. -/
theorem c3_report_record (nfc : List Char → List Char) (rawLine : List Char)
    (nerEnts : List Ent) (minScore : ℚ) (maskOrg maskZip filterStreets : Bool)
    (r : LineResult)
    (h : processLine nfc rawLine nerEnts minScore maskOrg maskZip filterStreets = some r) :
    ∃ ents, detect_titles_and_names (preprocess_text nfc rawLine) nerEnts = some ents ∧
      r.text = preprocess_text nfc rawLine ∧
      r.entities = clean_and_filter_ents ents minScore := by
  rw [processLine] at h
  cases hdet : detect_titles_and_names (preprocess_text nfc rawLine) nerEnts with
  | none =>
    rw [hdet] at h
    exact absurd h (by simp)
  | some ents =>
    rw [hdet] at h
    have h2 : (mask_ner_multi (preprocess_text nfc rawLine)
        (clean_and_filter_ents ents minScore)
        ([("PER", "[PERSON_REDACTED]".toList), ("LOC", "[LOC_REDACTED]".toList)] ++
          (if maskOrg then [("ORG", "[ORG_REDACTED]".toList)] else [])) filterStreets).bind
        (fun m => some (⟨preprocess_text nfc rawLine, clean_and_filter_ents ents minScore,
          (mask_regex m.1 maskZip).1, m.2.1, m.2.2,
          (mask_regex m.1 maskZip).2⟩ : LineResult)) = some r := h
    cases hmask : mask_ner_multi (preprocess_text nfc rawLine)
        (clean_and_filter_ents ents minScore)
        ([("PER", "[PERSON_REDACTED]".toList), ("LOC", "[LOC_REDACTED]".toList)] ++
          (if maskOrg then [("ORG", "[ORG_REDACTED]".toList)] else [])) filterStreets with
    | none =>
      rw [hmask] at h2
      exact absurd h2 (by simp)
    | some m =>
      rw [hmask] at h2
      rw [Option.some_bind] at h2
      obtain rfl := Option.some.inj h2
      exact ⟨ents, rfl, rfl, rfl⟩

/-- On the line "I live on State St" with a high-confidence LOC span covering
"State St" and street filtering enabled, the span is suppressed by the policy
(the filtered counter records it and the text is left unmasked), yet it still
appears among the entities of the report record: the record is written before
the policy filter. -/
theorem c3_report_counterexample :
    ∃ r, processLine (fun x => x) "I live on State St".toList
        [({ group := "LOC", start := .int 10, stop := .int 18, word := "State St".toList, score := .float 1 } : Ent)]
        (mkRat 8 10) false false true = some r ∧
      r.filteredCounts "LOC" = 1 ∧
      r.entities = [({ group := "LOC", start := .int 10, stop := .int 18, word := "State St".toList, score := .float 1 } : Ent)] ∧
      r.nerCounts "LOC" = 0 ∧ r.masked = "I live on State St".toList := by
  refine ⟨_, rfl, by decide, by decide, by decide, by decide⟩

theorem c3_report_record_witness :
    ∃ r, processLine (fun x => x) "hi".toList [] 0 false false false = some r ∧
      ∃ ents, detect_titles_and_names (preprocess_text (fun x => x) "hi".toList) [] = some ents ∧
        r.text = preprocess_text (fun x => x) "hi".toList ∧
        r.entities = clean_and_filter_ents ents 0 :=
  ⟨_, rfl, c3_report_record (fun x => x) "hi".toList [] 0 false false false _ rfl⟩

theorem pairwise_mem_rel {α : Type} {R : α → α → Prop} :
    ∀ (l : List α) (a b : α), l.Pairwise R → a ∈ l → b ∈ l → a = b ∨ R a b ∨ R b a := by
  intro l
  induction l with
  | nil =>
    intro a b _ ha
    exact absurd ha (List.not_mem_nil a)
  | cons x l ih =>
    intro a b hpw ha hb
    rw [List.pairwise_cons] at hpw
    rcases List.mem_cons.mp ha with rfl | ha' <;> rcases List.mem_cons.mp hb with rfl | hb'
    · exact Or.inl rfl
    · exact Or.inr (Or.inl (hpw.1 b hb'))
    · exact Or.inr (Or.inr (hpw.1 a ha'))
    · exact ih a b hpw.2 ha' hb'

theorem clean_mem : ∀ (l : List Ent) (m : ℚ) (e : Ent), e ∈ clean_and_filter_ents l m →
    ∃ e0 ∈ l, e = cleanOne e0 ∧ m ≤ (e0.score.asQ).getD 0 := by
  intro l
  induction l with
  | nil =>
    intro m e he
    rw [clean_and_filter_ents] at he
    exact absurd he (List.not_mem_nil e)
  | cons e0 rest ih =>
    intro m e he
    rw [clean_and_filter_ents] at he
    by_cases hsc : ((e0.score.asQ).getD 0) ≥ m
    · rw [if_pos hsc] at he
      rcases List.mem_cons.mp he with rfl | he'
      · exact ⟨e0, List.mem_cons_self _ _, rfl, hsc⟩
      · obtain ⟨e1, he1, heq, hle⟩ := ih m e he'
        exact ⟨e1, List.mem_cons_of_mem _ he1, heq, hle⟩
    · rw [if_neg hsc] at he
      obtain ⟨e1, he1, heq, hle⟩ := ih m e he
      exact ⟨e1, List.mem_cons_of_mem _ he1, heq, hle⟩

theorem cleanOne_int_offsets (e : Ent) (a b : ℤ) (hsa : e.start = .int a)
    (hsb : e.stop = .int b) :
    (cleanOne e).start = .int a ∧ (cleanOne e).stop = .int b := by
  rw [cleanOne]
  simp [hsa, hsb, PyNum.toIntC]

/-- C10: the title-name overlap check runs against the unfiltered entity
list, before confidence filtering. If a below-threshold supplied PERSON span
overlaps the name range [p, q) of a title match, no title-derived span is
added for that name (every added span lies outside [p, q)); if moreover every
supplied span that overlaps [p, q) is below the threshold, then after
confidence filtering no span overlapping [p, q) remains, so no span covering
the name reaches the entity masker, which receives exactly the filtered
list. -/
theorem c10_overlap_check_prefilter (nfc : List Char → List Char) (rawLine : List Char)
    (nerEnts : List Ent) (minScore : ℚ) (maskOrg maskZip filterStreets : Bool)
    (r : LineResult) (p q : Nat)
    (h : processLine nfc rawLine nerEnts minScore maskOrg maskZip filterStreets = some r)
    (hmatch : ∃ m ∈ finditer TITLE_NAME_RE (preprocess_text nfc rawLine), m.2.2 = [p, q])
    (hexists : ∃ per ∈ nerEnts, per.group = "PER" ∧ ∃ s en, per.start.asQ = some s ∧
        per.stop.asQ = some en ∧ s < (q : ℚ) ∧ (p : ℚ) < en ∧
        (per.score.asQ).getD 0 < minScore)
    (hband : ∀ per ∈ nerEnts, ∀ s en, per.start.asQ = some s → per.stop.asQ = some en →
        s < (q : ℚ) → (p : ℚ) < en → (per.score.asQ).getD 0 < minScore)
    (hints : ∀ per ∈ nerEnts, (∃ a : ℤ, per.start = .int a) ∧ (∃ b : ℤ, per.stop = .int b)) :
    ∃ ents adds mres,
      detect_titles_and_names (preprocess_text nfc rawLine) nerEnts = some ents ∧
      ents = nerEnts ++ adds ∧
      (∀ e ∈ adds, ∃ p1 q1 : Nat, spanQ e = ((p1 : ℚ), (q1 : ℚ)) ∧ (q1 ≤ p ∨ q ≤ p1)) ∧
      r.entities = clean_and_filter_ents ents minScore ∧
      (∀ e ∈ clean_and_filter_ents ents minScore, ∀ s en, e.start.asQ = some s →
        e.stop.asQ = some en → ((q : ℚ) ≤ s ∨ en ≤ (p : ℚ))) ∧
      mask_ner_multi (preprocess_text nfc rawLine) (clean_and_filter_ents ents minScore)
        ([("PER", "[PERSON_REDACTED]".toList), ("LOC", "[LOC_REDACTED]".toList)] ++
          (if maskOrg then [("ORG", "[ORG_REDACTED]".toList)] else [])) filterStreets
        = some mres ∧
      r.masked = (mask_regex mres.1 maskZip).1 := by
  rw [processLine] at h
  cases hdet : detect_titles_and_names (preprocess_text nfc rawLine) nerEnts with
  | none =>
    rw [hdet] at h
    exact absurd h (by simp)
  | some ents =>
    rw [hdet] at h
    have h2 : (mask_ner_multi (preprocess_text nfc rawLine)
        (clean_and_filter_ents ents minScore)
        ([("PER", "[PERSON_REDACTED]".toList), ("LOC", "[LOC_REDACTED]".toList)] ++
          (if maskOrg then [("ORG", "[ORG_REDACTED]".toList)] else [])) filterStreets).bind
        (fun m => some (⟨preprocess_text nfc rawLine, clean_and_filter_ents ents minScore,
          (mask_regex m.1 maskZip).1, m.2.1, m.2.2,
          (mask_regex m.1 maskZip).2⟩ : LineResult)) = some r := h
    cases hmask : mask_ner_multi (preprocess_text nfc rawLine)
        (clean_and_filter_ents ents minScore)
        ([("PER", "[PERSON_REDACTED]".toList), ("LOC", "[LOC_REDACTED]".toList)] ++
          (if maskOrg then [("ORG", "[ORG_REDACTED]".toList)] else [])) filterStreets with
    | none =>
      rw [hmask] at h2
      exact absurd h2 (by simp)
    | some mres =>
      rw [hmask] at h2
      rw [Option.some_bind] at h2
      obtain rfl := Option.some.inj h2
      rw [detect_titles_and_names] at hdet
      cases hadd : addTitleEnts (preprocess_text nfc rawLine) nerEnts
          (finditer TITLE_NAME_RE (preprocess_text nfc rawLine)) with
      | none =>
        rw [hadd] at hdet
        exact absurd hdet (by simp)
      | some adds =>
        rw [hadd] at hdet
        have hE : some (nerEnts ++ adds) = some ents := hdet
        obtain rfl := Option.some.inj hE
        have facts := finditerF_facts (preprocess_text nfc rawLine) TITLE_NAME_RE
          ((preprocess_text nfc rawLine).length + 1) 0
        have hruns : ∀ m ∈ finditer TITLE_NAME_RE (preprocess_text nfc rawLine),
            (m.2.1, m.2.2) ∈ runs (preprocess_text nfc rawLine) TITLE_NAME_RE m.1 :=
          fun m hm => (facts.1 m hm).2.2
        obtain ⟨hspans, _⟩ := addTitleEnts_spans (preprocess_text nfc rawLine) nerEnts
          (finditer TITLE_NAME_RE (preprocess_text nfc rawLine)) adds hadd hruns facts.2
        have hmem := addTitleEnts_mem (preprocess_text nfc rawLine) nerEnts
          (finditer TITLE_NAME_RE (preprocess_text nfc rawLine)) adds hadd hruns
        obtain ⟨m, hm, hsv⟩ := hmatch
        obtain ⟨p0, q0, hsv0, hmlt, hpq0, hend0, _, _⟩ :=
          title_run_shape (preprocess_text nfc rawLine) m.1 m.2.1 m.2.2 (hruns m hm)
        rw [hsv] at hsv0
        have hp0 : p = p0 := (List.cons.inj hsv0).1
        have hq0 : q = q0 := (List.cons.inj (List.cons.inj hsv0).2).1
        rw [← hp0] at hmlt
        rw [← hq0] at hend0
        have hA : ∀ e ∈ adds, ∃ p2 q2 : Nat,
            e = { group := "PER", start := .int (p2 : ℤ), stop := .int (q2 : ℤ), word := pySlice (preprocess_text nfc rawLine) (p2 : ℤ) (q2 : ℤ), score := .float (mkRat 95 100) } ∧
            (q2 ≤ p ∨ q ≤ p2) := by
          intro e he
          obtain ⟨p2, q2, hbeq, _, _, _, hov⟩ := hmem e he
          obtain ⟨m', hm', p1, q1, hspan1, hm1lt, hp1q1, hq1end, hsv1⟩ := hspans e he
          have hspan2 : spanQ e = ((p2 : ℚ), (q2 : ℚ)) := by
            rw [hbeq]
            simp [spanQ, PyNum.asQ]
          rw [hspan2] at hspan1
          obtain ⟨he1, he2⟩ := Prod.mk.injEq .. |>.mp hspan1
          obtain rfl : p2 = p1 := Nat.cast_injective he1
          obtain rfl : q2 = q1 := Nat.cast_injective he2
          refine ⟨p2, q2, hbeq, ?_⟩
          rcases pairwise_mem_rel _ m' m facts.2 hm' hm with heq | hlt | hgt
          · rw [heq, hsv] at hsv1
            have hp2 : p = p2 := (List.cons.inj hsv1).1
            have hq2 : q = q2 := (List.cons.inj (List.cons.inj hsv1).2).1
            obtain ⟨per, hper, hpg, s, en, hs, hen, hsq, hpe, _⟩ := hexists
            obtain ⟨s', en', hs', hen', hcond⟩ :=
              (overlapsPER_false_iff p2 q2 nerEnts).mp hov per hper hpg
            rw [hs] at hs'
            rw [hen] at hen'
            obtain rfl := Option.some.inj hs'
            obtain rfl := Option.some.inj hen'
            rw [← hp2, ← hq2] at hcond
            rcases hcond with h' | h'
            · exact absurd h' (not_le.mpr hsq)
            · exact absurd h' (not_le.mpr hpe)
          · left
            have : q2 = m'.2.1 := hq1end
            omega
          · right
            have : q = m.2.1 := hend0.symm
            omega
        refine ⟨nerEnts ++ adds, adds, mres, rfl, rfl, ?_, rfl, ?_, hmask, rfl⟩
        · intro e he
          obtain ⟨p2, q2, hbeq, havoid⟩ := hA e he
          refine ⟨p2, q2, ?_, havoid⟩
          rw [hbeq]
          simp [spanQ, PyNum.asQ]
        · intro e he s en hs hen
          obtain ⟨e0, he0, rfl, hkeep⟩ := clean_mem (nerEnts ++ adds) minScore e he
          rcases List.mem_append.mp he0 with h0 | h0
          · obtain ⟨⟨a, hsa⟩, ⟨b, hsb⟩⟩ := hints e0 h0
            obtain ⟨hca, hcb⟩ := cleanOne_int_offsets e0 a b hsa hsb
            rw [hca] at hs
            rw [hcb] at hen
            have hs0 : e0.start.asQ = some ((a : ℤ) : ℚ) := by rw [hsa]; rfl
            have hen0 : e0.stop.asQ = some ((b : ℤ) : ℚ) := by rw [hsb]; rfl
            have hs1 : s = ((a : ℤ) : ℚ) := (Option.some.inj hs).symm
            have hen1 : en = ((b : ℤ) : ℚ) := (Option.some.inj hen).symm
            by_contra hcon
            push_neg at hcon
            obtain ⟨hc1, hc2⟩ := hcon
            have hlow := hband e0 h0 s en (hs1 ▸ hs0) (hen1 ▸ hen0)
              (lt_of_not_le fun hle => absurd hle (not_le.mpr hc1))
              (lt_of_not_le fun hle => absurd hle (not_le.mpr hc2))
            exact absurd hkeep (not_le.mpr hlow)
          · obtain ⟨p2, q2, hbeq, havoid⟩ := hA e0 h0
            have hca : (cleanOne e0).start = .int (p2 : ℤ) :=
              (cleanOne_int_offsets e0 (p2 : ℤ) (q2 : ℤ) (by rw [hbeq]) (by rw [hbeq])).1
            have hcb : (cleanOne e0).stop = .int (q2 : ℤ) :=
              (cleanOne_int_offsets e0 (p2 : ℤ) (q2 : ℤ) (by rw [hbeq]) (by rw [hbeq])).2
            rw [hca] at hs
            rw [hcb] at hen
            have hs1 : s = ((p2 : ℤ) : ℚ) := (Option.some.inj hs).symm
            have hen1 : en = ((q2 : ℤ) : ℚ) := (Option.some.inj hen).symm
            rcases havoid with h' | h'
            · right
              rw [hen1]
              push_cast
              exact_mod_cast h'
            · left
              rw [hs1]
              push_cast
              exact_mod_cast h'

theorem c10_overlap_check_prefilter_witness :
    ∃ r, processLine (fun x => x) "dr al".toList
        [({ group := "PER", start := .int 3, stop := .int 5, word := ['a', 'l'], score := .float (mkRat 1 2) } : Ent)]
        (mkRat 8 10) false false false = some r ∧
      ∃ ents adds mres,
        detect_titles_and_names (preprocess_text (fun x => x) "dr al".toList)
          [({ group := "PER", start := .int 3, stop := .int 5, word := ['a', 'l'], score := .float (mkRat 1 2) } : Ent)] = some ents ∧
        ents = [({ group := "PER", start := .int 3, stop := .int 5, word := ['a', 'l'], score := .float (mkRat 1 2) } : Ent)] ++ adds ∧
        (∀ e ∈ adds, ∃ p1 q1 : Nat, spanQ e = ((p1 : ℚ), (q1 : ℚ)) ∧ (q1 ≤ 3 ∨ 5 ≤ p1)) ∧
        r.entities = clean_and_filter_ents ents (mkRat 8 10) ∧
        (∀ e ∈ clean_and_filter_ents ents (mkRat 8 10), ∀ s en, e.start.asQ = some s →
          e.stop.asQ = some en → (((5 : Nat) : ℚ) ≤ s ∨ en ≤ ((3 : Nat) : ℚ))) ∧
        mask_ner_multi (preprocess_text (fun x => x) "dr al".toList)
          (clean_and_filter_ents ents (mkRat 8 10))
          ([("PER", "[PERSON_REDACTED]".toList), ("LOC", "[LOC_REDACTED]".toList)] ++
            (if false then [("ORG", "[ORG_REDACTED]".toList)] else [])) false
          = some mres ∧
        r.masked = (mask_regex mres.1 false).1 :=
  ⟨_, rfl, c10_overlap_check_prefilter (fun x => x) "dr al".toList
    [({ group := "PER", start := .int 3, stop := .int 5, word := ['a', 'l'], score := .float (mkRat 1 2) } : Ent)]
    (mkRat 8 10) false false false _ 3 5 rfl
    (by decide)
    ⟨({ group := "PER", start := .int 3, stop := .int 5, word := ['a', 'l'], score := .float (mkRat 1 2) } : Ent),
      List.mem_cons_self _ _, rfl, (3 : ℚ), (5 : ℚ), by decide, by decide, by decide,
      by decide, by decide⟩
    (by
      intro per hper s en hs hen hsq hpe
      rw [List.mem_singleton] at hper
      subst hper
      decide)
    (by
      intro per hper
      rw [List.mem_singleton] at hper
      subst hper
      exact ⟨⟨3, rfl⟩, ⟨5, rfl⟩⟩)⟩
